import Mathlib

/-!
Verification development for the intake-bluesky repository.

The Python sources under `intake_bluesky/` are shallowly embedded below:
pure fragments become Lean functions, generators become functions producing
lists, Python exceptions become explicit outcome constructors, and a Python
loop whose condition can never change (an infinite loop) is modelled by an
`Option` result, `none` standing for divergence.  MongoDB collections are
modelled as Lean lists of documents; a `find` with a sort is modelled by a
stable insertion sort of the list.
-/

namespace IntakeBluesky

/-! Characters written via code points: the double quote and the braces. -/

def qu : Char := Char.ofNat 34

def lbr : Char := Char.ofNat 123

def rbr : Char := Char.ofNat 125

/-! ### Paged cursors: `_get_datum_cursor` / `_get_event_cursor` (mongo_embedded.py)

A stored page carries a `first_index`/`last_index` range and its records.
Records are identified by a `Nat` payload.  `sys.maxsize` is `2^63 - 1`.
-/

def maxsize : Nat := 2 ^ 63 - 1

structure DatumPage where
  first_index : Nat
  last_index : Nat
  data : List Nat
deriving DecidableEq

/-- The body of the page loop in `_get_datum_cursor` (and identically the
`event_gen` inner generator of `_get_event_cursor`): for
`datum_index, datum in enumerate(unpack(page))` the code runs
`while ((datum_index+1)*(page_index+1)) < skip: continue`, whose condition
never changes, so a true condition loops forever (modelled as `none`);
`if not ((datum_index+1)*(page_index+1)) < (skip+limit): return` ends the
whole generator (modelled as the `true` flag). -/
def cursorPage (skip limit pageIndex : Nat) : List Nat → Nat → Option (List Nat × Bool)
  | [], _ => some ([], false)
  | d :: ds, datumIndex =>
    if (datumIndex + 1) * (pageIndex + 1) < skip then
      none
    else if ¬ (datumIndex + 1) * (pageIndex + 1) < skip + limit then
      some ([], true)
    else
      match cursorPage skip limit pageIndex ds (datumIndex + 1) with
      | none => none
      | some (out, stopped) => some (d :: out, stopped)

/-- The outer loop `for page_index, datum_page in enumerate(page_cursor)`. -/
def cursorPages (skip limit : Nat) : List DatumPage → Nat → Option (List Nat)
  | [], _ => some []
  | p :: ps, pageIndex =>
    match cursorPage skip limit pageIndex p.data 0 with
    | none => none
    | some (out, true) => some out
    | some (out, false) =>
      match cursorPages skip limit ps (pageIndex + 1) with
      | none => none
      | some rest => some (out ++ rest)

/-- Stable insertion (ascending by `last_index`), modelling the Mongo
`sort=[('last_index', pymongo.ASCENDING)]`. -/
def insertPage (p : DatumPage) : List DatumPage → List DatumPage
  | [] => [p]
  | x :: xs => if p.last_index < x.last_index then p :: x :: xs else x :: insertPage p xs

def sortPages (pages : List DatumPage) : List DatumPage :=
  pages.foldl (fun acc p => insertPage p acc) []

/-- The Mongo `find` filter of `_get_datum_cursor`:
`last_index >= skip` and `first_index <= skip + limit`, then sorted. -/
def pageSelect (skip limitv : Nat) (pages : List DatumPage) : List DatumPage :=
  sortPages (pages.filter (fun p => skip ≤ p.last_index && p.first_index ≤ skip + limitv))

/-- `BlueskyMongoCatalog._get_datum_cursor` for one resource, over the pages
stored for that resource.  `limit = none` models Python `limit=None`
(replaced by `sys.maxsize`).  A `none` result models divergence. -/
def getDatumCursor (pages : List DatumPage) (skip : Nat) (limit : Option Nat) :
    Option (List Nat) :=
  cursorPages skip (limit.getD maxsize) (pageSelect skip (limit.getD maxsize) pages) 0

/-- Modelled from the spec's words, for comparison with the code: the paged
read yields exactly the records with global index in
`[skip, min(skip+limit, L))`, in ascending order. -/
def specPagedRead (pages : List DatumPage) (skip : Nat) (limit : Option Nat) : List Nat :=
  match limit with
  | none => ((pages.map DatumPage.data).flatten).drop skip
  | some l => (((pages.map DatumPage.data).flatten).drop skip).take l

/-! ### The run lookup layer: `_Entries.__getitem__` / `__contains__`
(mongo_normalized.py; `Entries` in mongo_embedded.py is line-for-line the
same logic over `start.uid` / `start.time` / `start.scan_id`).

The catalog's backing collection is modelled as the list of run start
documents matching the current query, in insertion order; `find(...).sort`
is a stable insertion sort.  `int(name)` succeeding or failing is modelled
by the key being `Sum.inl N` or `Sum.inr s`. -/

structure RunStart where
  uid : String
  time : Nat
  scan_id : Int
deriving DecidableEq

/-- Outcome of `__getitem__`: an entry, `KeyError`, `ValueError` (the
"Multiple matches to partial uid" error, carrying the listed uids), or
`IndexError`. -/
inductive GetOutcome where
  | entry (r : RunStart)
  | keyError
  | ambiguous (uids : List String)
  | indexError
deriving DecidableEq

/-- Stable insertion (descending by `time`), modelling
`.sort('time', pymongo.DESCENDING)`. -/
def insertDesc (r : RunStart) : List RunStart → List RunStart
  | [] => [r]
  | x :: xs => if x.time < r.time then r :: x :: xs else x :: insertDesc r xs

def sortDesc (runs : List RunStart) : List RunStart :=
  runs.foldl (fun acc r => insertDesc r acc) []

/-- `p` occurs as a contiguous substring of `s`.  This models the Mongo
`$regex: f'{name}.*'` on a metacharacter-free `name`: Mongo regexes are
unanchored, so the pattern matches any uid CONTAINING `name`. -/
def subB (p : List Char) : List Char → Bool
  | [] => p.isEmpty
  | c :: cs => p.isPrefixOf (c :: cs) || subB p cs

def regexMatch (name uid : String) : Bool :=
  subB name.toList uid.toList

/-- The string branch of `__getitem__`: exact uid `find_one`, then the
`$regex` query `.limit(10)`; zero matches raise `KeyError`, one returns it,
more raise `ValueError` listing the matched uids. -/
def entriesGetStr (runs : List RunStart) (name : String) : GetOutcome :=
  match runs.find? (fun r => r.uid == name) with
  | some r => .entry r
  | none =>
    match (runs.filter (fun r => regexMatch name r.uid)).take 10 with
    | [] => .keyError
    | [r] => .entry r
    | ms => .ambiguous (ms.map RunStart.uid)

/-- The integer branch of `__getitem__`: negative `N` is
`find(query).sort(time, DESC).skip(-N-1).limit(1)` with `IndexError` when
the cursor is empty; non-negative `N` is the most recent run with
`scan_id == N`, `KeyError` when none. -/
def entriesGetInt (runs : List RunStart) (N : Int) : GetOutcome :=
  if N < 0 then
    match (sortDesc runs).drop (-N - 1).toNat with
    | [] => .indexError
    | r :: _ => .entry r
  else
    match sortDesc (runs.filter (fun r => r.scan_id == N)) with
    | [] => .keyError
    | r :: _ => .entry r

def entriesGetItem (runs : List RunStart) (key : Int ⊕ String) : GetOutcome :=
  match key with
  | .inl N => entriesGetInt runs N
  | .inr s => entriesGetStr runs s

/-- `Entries.keys()`: uids in time-descending order. -/
def entriesKeys (runs : List RunStart) : List String :=
  (sortDesc runs).map RunStart.uid

inductive ContainsOutcome where
  | ret (b : Bool)
  | ambiguousErr (uids : List String)
  | indexErr
deriving DecidableEq

/-- `__contains__`: `try: self[key] except KeyError: return False else:
return True` — only `KeyError` is caught; `ValueError` and `IndexError`
escape. -/
def entriesContains (runs : List RunStart) (key : Int ⊕ String) : ContainsOutcome :=
  match entriesGetItem runs key with
  | .entry _ => .ret true
  | .keyError => .ret false
  | .ambiguous uids => .ambiguousErr uids
  | .indexError => .indexErr

/-! ### The jsonl incremental loader (jsonl.py): `get_stop` and `_load`

A file is a modification time plus a list of lines.  A line either decodes
as a two-element `[name, doc]` JSON array (`pair`), raises
`json.JSONDecodeError` (`invalid` — an undecodable or truncated line), or
decodes as JSON that is not a `(name, doc)` pair so that unpacking raises an
uncaught `TypeError`/`ValueError` (`nonPair`).  Documents are identified by
a `Nat` payload.  `readline` past the last line returns the empty (falsy)
string. -/

inductive Line where
  | pair (name : String) (doc : Nat)
  | invalid
  | nonPair
deriving DecidableEq

structure FileData where
  mtime : Nat
  lines : List Line
deriving DecidableEq

/-- Outcome of `get_stop`: a normal return, an `UnboundLocalError` (the
local `name` is read without having been assigned), or an uncaught
exception from unpacking. -/
inductive StopResult where
  | ok (d : Option Nat)
  | unboundLocal
  | uncaught
deriving DecidableEq

/-- `get_stop` from jsonl.py.  `lastlines` lives in core.py, which is not
among the sources; modelled from the spec: "read only the last line".  An
empty file's last line is the empty string, which is falsy, so `stop_doc`
stays `None`.  Otherwise the code runs
`try: name, doc = json.loads(lastline) except json.JSONDecodeError: ...`
and then unconditionally evaluates `if (name == 'stop')`: when the decode
failed, `name` was never assigned in this call, so that line raises
`UnboundLocalError`. -/
def get_stop (lines : List Line) : StopResult :=
  match lines.getLast? with
  | none => .ok none
  | some (.pair name doc) => .ok (if name = "stop" then some doc else none)
  | some .invalid => .unboundLocal
  | some .nonPair => .uncaught

/-- Modelled from the spec and from get_stop's own docstring and comment
("stop_doc will stay None if it can't be decoded correctly"): return the
stop document when the last line is a `['stop', doc]` pair and `None` in
every other case. -/
def specGetStop (lines : List Line) : Option Nat :=
  match lines.getLast? with
  | some (.pair name doc) => if name = "stop" then some doc else none
  | _ => none

/-- Association-list update keyed by filename (first occurrence replaced,
else appended), modelling Python dict assignment. -/
def alSet {α : Type} (k : String) (v : α) : List (String × α) → List (String × α)
  | [] => [(k, v)]
  | (k', v') :: rest => if k' = k then (k, v) :: rest else (k', v') :: alSet k v rest

/-- A run registration as passed to `upsert(gen, start_doc, stop_doc,
(filename,), {})`. -/
structure Registration where
  start_doc : Nat
  stop_doc : Option Nat
  filename : String
deriving DecidableEq

/-- `upsert` is defined in in_memory.py, which is not among the sources.
Modelled from the spec: "A changed file replaces its previous registration
entirely (no partial-merge of old and new content for that file)" — the
file's registration is replaced wholesale. -/
def upsert (entries : List (String × Registration)) (f : String) (reg : Registration) :
    List (String × Registration) :=
  alSet f reg entries

/-- Observable I/O of one `_load` iteration: the `os.path.getmtime` stat,
reading line `i` of a file, and reading a file's last line. -/
inductive ReadOp where
  | statOp (f : String)
  | readLineOp (f : String) (i : Nat)
  | readLastOp (f : String)
deriving DecidableEq

inductive CrashKind where
  | unboundLocal
  | uncaught
deriving DecidableEq

/-- Result of processing one file inside `_load`: the updated mtime table
and entry table, the value of the Python local `start_doc` after the
iteration (it persists across iterations of one `_load` call), the reads
performed, and whether the iteration raised. -/
structure LoadStep where
  mtimes : List (String × Nat)
  entries : List (String × Registration)
  lastStart : Option Nat
  ops : List ReadOp
  crash : Option CrashKind
deriving DecidableEq

/-- One iteration of the `for filename in glob.glob(path)` loop of
`BlueskyJSONLCatalog._load`: skip when the stat matches the recorded mtime;
otherwise record the mtime FIRST, read the first line, and on
`json.JSONDecodeError` read the second line — empty means `continue`
(file may be being written), nonempty falls out of the `except` block with
`start_doc` unassigned in this iteration, so the subsequent
`self.upsert(gen, start_doc, ...)` either raises `UnboundLocalError` (no
earlier iteration assigned it) or silently registers the file under the
PREVIOUS file's start document. -/
def loadFile (f : String) (fd : FileData) (mt : List (String × Nat))
    (en : List (String × Registration)) (ls : Option Nat) : LoadStep :=
  if mt.lookup f = some fd.mtime then
    ⟨mt, en, ls, [.statOp f], none⟩
  else
    match fd.lines.head? with
    | none =>
      ⟨alSet f fd.mtime mt, en, ls, [.statOp f, .readLineOp f 0, .readLineOp f 1], none⟩
    | some (.pair _ sd) =>
      match get_stop fd.lines with
      | .ok sp =>
        ⟨alSet f fd.mtime mt, upsert en f ⟨sd, sp, f⟩, some sd,
          [.statOp f, .readLineOp f 0, .readLastOp f], none⟩
      | .unboundLocal =>
        ⟨alSet f fd.mtime mt, en, some sd,
          [.statOp f, .readLineOp f 0, .readLastOp f], some .unboundLocal⟩
      | .uncaught =>
        ⟨alSet f fd.mtime mt, en, some sd,
          [.statOp f, .readLineOp f 0, .readLastOp f], some .uncaught⟩
    | some .invalid =>
      match fd.lines[1]? with
      | none =>
        ⟨alSet f fd.mtime mt, en, ls, [.statOp f, .readLineOp f 0, .readLineOp f 1], none⟩
      | some _ =>
        match ls with
        | none =>
          ⟨alSet f fd.mtime mt, en, ls, [.statOp f, .readLineOp f 0, .readLineOp f 1],
            some .unboundLocal⟩
        | some sd =>
          match get_stop fd.lines with
          | .ok sp =>
            ⟨alSet f fd.mtime mt, upsert en f ⟨sd, sp, f⟩, ls,
              [.statOp f, .readLineOp f 0, .readLineOp f 1, .readLastOp f], none⟩
          | .unboundLocal =>
            ⟨alSet f fd.mtime mt, en, ls,
              [.statOp f, .readLineOp f 0, .readLineOp f 1, .readLastOp f],
              some .unboundLocal⟩
          | .uncaught =>
            ⟨alSet f fd.mtime mt, en, ls,
              [.statOp f, .readLineOp f 0, .readLineOp f 1, .readLastOp f],
              some .uncaught⟩
    | some .nonPair =>
      ⟨alSet f fd.mtime mt, en, ls, [.statOp f, .readLineOp f 0], some .uncaught⟩

/-- The whole `_load` scan over the globbed files, threading the mtime
table, the entry table and the Python local `start_doc`; an exception
aborts the scan keeping the mutations made so far. -/
def runLoad : List (String × FileData) → List (String × Nat) →
    List (String × Registration) → Option Nat →
    List (String × Nat) × List (String × Registration) × List ReadOp × Option CrashKind
  | [], mt, en, _ => (mt, en, [], none)
  | (f, fd) :: rest, mt, en, ls =>
    match loadFile f fd mt en ls with
    | ⟨mt', en', _, ops', some c⟩ => (mt', en', ops', some c)
    | ⟨mt', en', ls', ops', none⟩ =>
      ((runLoad rest mt' en' ls').1, (runLoad rest mt' en' ls').2.1,
        ops' ++ (runLoad rest mt' en' ls').2.2.1, (runLoad rest mt' en' ls').2.2.2)

/-- One `_load` call: the local `start_doc` starts unassigned. -/
def load (files : List (String × FileData)) (mt : List (String × Nat))
    (en : List (String × Registration)) :
    List (String × Nat) × List (String × Registration) × List ReadOp × Option CrashKind :=
  runLoad files mt en none

/-! ### The k-way time-ordered merge: `interlace_gens` (mongo_embedded.py)

The merged generators yield dicts carrying a `'time'` key; a record is
modelled by its time and an opaque `tag` payload (the theorems instantiate
the tag with the record's source index to speak about tie-breaking).  The
Python heap holds tuples `(val['time'], indx, val)`, compared
lexicographically; since at most one entry per source is pending and the
source indices are distinct, the heap minimum is the least `(time, indx)`
pair. -/

structure Rec where
  time : Nat
  tag : Nat
deriving DecidableEq

/-- A heap entry `(val['time'], indx, val)`. -/
abbrev HeapE := Nat × Nat × Rec

def hkey (e : HeapE) : Nat × Nat := (e.1, e.2.1)

def keyLt (a b : Nat × Nat) : Bool :=
  a.1 < b.1 || (a.1 == b.1 && a.2 < b.2)

/-- `heapq.heappop`: remove the least entry by `(time, indx)`. -/
def popMin (e : HeapE) : List HeapE → HeapE × List HeapE
  | [] => (e, [])
  | f :: fs =>
    if keyLt (hkey f) (hkey e) then
      ((popMin f fs).1, e :: (popMin f fs).2)
    else
      ((popMin e fs).1, f :: (popMin e fs).2)

/-- The main loop of `interlace_gens`: pop the minimum, yield its value,
and refill from the source it came from (`safe_next(indx)`).  Fuel-driven
so that the definition is structurally recursive; one unit of fuel is spent
per emitted record, and `measureSH` fuel always suffices. -/
def mergeLoopF : Nat → List (List Rec) → List HeapE → List Rec
  | 0, _, _ => []
  | _ + 1, _, [] => []
  | fuel + 1, streams, e :: hs =>
    match streams[(popMin e hs).1.2.1]? with
    | some (r :: rs) =>
      (popMin e hs).1.2.2 ::
        mergeLoopF fuel (streams.set (popMin e hs).1.2.1 rs)
          ((r.time, (popMin e hs).1.2.1, r) :: (popMin e hs).2)
    | some [] => (popMin e hs).1.2.2 :: mergeLoopF fuel streams (popMin e hs).2
    | none => (popMin e hs).1.2.2 :: mergeLoopF fuel streams (popMin e hs).2

def measureSH (s : List (List Rec)) (h : List HeapE) : Nat :=
  (s.map List.length).sum + h.length

/-- The initialisation loop `for i in range(len(iters)): safe_next(i)`:
each nonempty source contributes its head to the heap and keeps its tail. -/
def initAux (i : Nat) : List (List Rec) → List (List Rec) × List HeapE
  | [] => ([], [])
  | g :: gs =>
    match g with
    | [] => ([] :: (initAux (i + 1) gs).1, (initAux (i + 1) gs).2)
    | r :: rs => (rs :: (initAux (i + 1) gs).1, (r.time, i, r) :: (initAux (i + 1) gs).2)

/-- `interlace_gens` over the (already materialised) generators. -/
def interlace_gens (gens : List (List Rec)) : List Rec :=
  mergeLoopF (measureSH (initAux 0 gens).1 (initAux 0 gens).2)
    (initAux 0 gens).1 (initAux 0 gens).2

/-- The lexicographic `(time, source)` increase that the C2 theorem asserts
of consecutive output records. -/
def lexLe (a b : Rec) : Prop :=
  a.time < b.time ∨ (a.time = b.time ∧ a.tag ≤ b.tag)

/-- `(time, index)` keys ordered lexicographically (non-strict). -/
def pairLe (a b : Nat × Nat) : Prop :=
  a.1 < b.1 ∨ (a.1 = b.1 ∧ a.2 ≤ b.2)

/-- Every remaining stream is ascending by time. -/
def StreamsOk (s : List (List Rec)) : Prop :=
  ∀ l ∈ s, List.Chain' (fun a b : Rec => a.time ≤ b.time) l

/-- Every record still waiting in stream `i` is tagged `i`. -/
def TagsOk (s : List (List Rec)) : Prop :=
  ∀ (i : Nat) (l : List Rec), s[i]? = some l → ∀ r ∈ l, r.tag = i

/-- Each pending heap entry has a valid source index, carries its value's
time and tag, and is no later than anything left in its source. -/
def HeapOk (s : List (List Rec)) (h : List HeapE) : Prop :=
  ∀ e ∈ h, e.2.1 < s.length ∧ e.1 = e.2.2.time ∧ e.2.2.tag = e.2.1 ∧
    ∀ l, s[e.2.1]? = some l → ∀ r ∈ l, e.1 ≤ r.time

/-- A source with no pending heap entry is exhausted. -/
def EmptyOk (s : List (List Rec)) (h : List HeapE) : Prop :=
  ∀ i, i < s.length → (∀ e ∈ h, e.2.1 ≠ i) → s[i]? = some []

/-! ### `query_embedder` (mongo_embedded.py)

The function works on the JSON text of the query:
```
query_string = json.dumps(query)
keys = [item.split('\x22')[-1] for item in query_string.split('\x22:')][0:-1]
new_keys = [f'start.\x7bkey\x7d' if '$' not in key else key for key in keys]
for index, key in enumerate(keys):
    query_string = query_string.replace(key, new_keys[index])
return json.loads(query_string)
```
Strings are modelled as `List Char`.  A query is a list of key/value pairs
whose values are already serialised fragments (covering ints and other
quote-free JSON scalars); `json.dumps` of such a dict is the canonical
`\x7b"k1": v1, "k2": v2\x7d` text, built by `dumps` below.  Python's
`str.split` and `str.replace` (left-to-right, non-overlapping) are
`strSplitOn` and `strReplace`, written with a structural fuel argument so
they evaluate in the kernel; the fuel `s.length` always suffices. -/

abbrev QStr := List Char

abbrev Query := List (QStr × QStr)

/-- The `", "`-separated tail of the serialised dict. -/
def dumpsTail : Query → List Char
  | [] => [rbr]
  | (k, v) :: rest => ',' :: ' ' :: qu :: (k ++ qu :: ':' :: ' ' :: (v ++ dumpsTail rest))

/-- `json.dumps` of the query dict. -/
def dumps : Query → List Char
  | [] => [lbr, rbr]
  | (k, v) :: rest => lbr :: qu :: (k ++ qu :: ':' :: ' ' :: (v ++ dumpsTail rest))

/-- Python `s.split(sep)` for a nonempty `sep` (fuel-driven). -/
def strSplitOnF : Nat → List Char → List Char → List (List Char)
  | 0, _, s => [s]
  | _ + 1, _, [] => [[]]
  | fuel + 1, sep, c :: cs =>
    if sep ≠ [] ∧ sep.isPrefixOf (c :: cs) then
      [] :: strSplitOnF fuel sep (cs.drop (sep.length - 1))
    else
      match strSplitOnF fuel sep cs with
      | [] => [[c]]
      | h :: t => (c :: h) :: t

def strSplitOn (sep s : List Char) : List (List Char) :=
  strSplitOnF s.length sep s

/-- Python `s.replace(pat, rep)` for a nonempty `pat` (fuel-driven). -/
def strReplaceF : Nat → List Char → List Char → List Char → List Char
  | 0, _, _, s => s
  | _ + 1, _, _, [] => []
  | fuel + 1, pat, rep, c :: cs =>
    if pat ≠ [] ∧ pat.isPrefixOf (c :: cs) then
      rep ++ strReplaceF fuel pat rep (cs.drop (pat.length - 1))
    else
      c :: strReplaceF fuel pat rep cs

def strReplace (pat rep s : List Char) : List Char :=
  strReplaceF s.length pat rep s

/-- Number of positions of `s` at which `pat` matches.  The claim's
"does not occur as a substring elsewhere" precondition is
`countOcc key (dumps q) = 1`. -/
def countOcc (pat s : List Char) : Nat :=
  (List.range (s.length + 1)).countP (fun k => pat.isPrefixOf (s.drop k))

/-- The split separator `'":'`. -/
def qcolon : List Char := [qu, ':']

/-- `[item.split('"')[-1] for item in query_string.split('":')][0:-1]`. -/
def extractKeys (s : List Char) : List (List Char) :=
  ((strSplitOn qcolon s).map (fun item => ((strSplitOn [qu] item).getLast?).getD [])).dropLast

def startDot : List Char := 's' :: 't' :: 'a' :: 'r' :: 't' :: '.' :: []

/-- `f'start.{key}' if '$' not in key else key`. -/
def newKey (k : List Char) : List Char :=
  if '$' ∈ k then k else startDot ++ k

/-- The replacement loop `for index, key in enumerate(keys): ...`. -/
def applyReplaces (keys : List (List Char)) (s : List Char) : List Char :=
  keys.foldl (fun acc k => strReplace k (newKey k) acc) s

/-- `json.loads` of the final text, for dicts in the canonical shape: the
text split on `'"'` must be `'{'` followed by alternating key and
`': value'` segments.  Parses the middle segments of the pairs. -/
def parseRest : List (List Char) → Option Query
  | [] => none
  | [_] => none
  | [k, m] =>
    if m.take 2 = [':', ' '] ∧ m.getLast? = some rbr then
      some [(k, ((m.drop 2).dropLast))]
    else none
  | k :: m :: rest =>
    match parseRest rest with
    | none => none
    | some ps =>
      if m.take 2 = [':', ' '] ∧ ((m.drop 2).reverse.take 2 = [' ', ',']) then
        some ((k, ((m.drop 2).dropLast.dropLast)) :: ps)
      else none

def parseQuery (s : List Char) : Option Query :=
  match strSplitOn [qu] s with
  | [x] => if x = [lbr, rbr] then some [] else none
  | x :: rest => if x = [lbr] then parseRest rest else none
  | [] => none

/-- `query_embedder` end to end: serialise, extract the keys, replace each
in the text, parse the result. -/
def query_embedder (q : Query) : Option Query :=
  parseQuery (applyReplaces (extractKeys (dumps q)) (dumps q))

/-- The query with each `'$'`-free key `k` replaced by `start.k`. -/
def prefixedQuery (q : Query) : Query :=
  q.map (fun p => (newKey p.1, p.2))

/-- The quote-separated segments of `dumps q` after the opening brace:
keys alternating with `': value'` separators. -/
def midSeg (v : List Char) : List Char := ':' :: ' ' :: (v ++ [',', ' '])

def lastSeg (v : List Char) : List Char := ':' :: ' ' :: (v ++ [rbr])

def segsBody : Query → List (List Char)
  | [] => []
  | [(k, v)] => [k, lastSeg v]
  | (k, v) :: rest => [k, midSeg v] ++ segsBody rest

/-- Non-final segments contributed by a prefix of the pairs. -/
def segsMid (d : Query) : List (List Char) :=
  (d.map (fun p => [p.1, midSeg p.2])).flatten

/-- Join segments with `'"'` between consecutive ones. -/
def interQuote : List (List Char) → List Char
  | [] => []
  | [s] => s
  | s :: rest => s ++ qu :: interQuote rest

end IntakeBluesky

namespace IntakeBluesky

/-- C1: the paged cursor read (`_get_datum_cursor`, and the identical
arithmetic in `_get_event_cursor`) does NOT yield the records with global
index in `[skip, min(skip+limit, L))`.  On a single page `[10,11,12]`
covering `[0,3)` with `skip = 0, limit = 2` the code yields only `[10]`
where the spec requires `[10, 11]`; and on pages `[10,11],[12,13]` covering
`[0,4)` with `skip = 2` the `while ... continue` loop never terminates
(modelled as `none`) where the spec requires `[12, 13]`. -/
theorem c1_paged_cursor_wrong :
    getDatumCursor [⟨0, 2, [10, 11, 12]⟩] 0 (some 2) = some [10] ∧
    specPagedRead [⟨0, 2, [10, 11, 12]⟩] 0 (some 2) = [10, 11] ∧
    getDatumCursor [⟨0, 1, [10, 11]⟩, ⟨2, 3, [12, 13]⟩] 2 none = none ∧
    specPagedRead [⟨0, 1, [10, 11]⟩, ⟨2, 3, [12, 13]⟩] 2 none = [12, 13] := by
  refine ⟨?_, by decide, ?_, by decide⟩ <;> decide

/-! ### Lemmas about the run lookup layer -/

theorem length_insertDesc (r : RunStart) (l : List RunStart) :
    (insertDesc r l).length = l.length + 1 := by
  induction l with
  | nil => rfl
  | cons x xs ih =>
    simp only [insertDesc]
    split <;> simp [ih]

theorem length_sortDesc_aux (runs : List RunStart) :
    ∀ acc : List RunStart,
      (runs.foldl (fun acc r => insertDesc r acc) acc).length = acc.length + runs.length := by
  induction runs with
  | nil => intro acc; simp
  | cons r rs ih =>
    intro acc
    simp only [List.foldl_cons, ih, length_insertDesc, List.length_cons]
    omega

theorem length_sortDesc (runs : List RunStart) :
    (sortDesc runs).length = runs.length := by
  simpa using length_sortDesc_aux runs []

theorem prefB_iff (p : List Char) : ∀ l, p.isPrefixOf l = true ↔ ∃ t, l = p ++ t := by
  induction p with
  | nil => intro l; simp [List.isPrefixOf]
  | cons a as ih =>
    intro l
    cases l with
    | nil => simp [List.isPrefixOf]
    | cons b bs =>
      simp only [List.isPrefixOf, Bool.and_eq_true, beq_iff_eq, ih bs]
      constructor
      · rintro ⟨rfl, t, rfl⟩; exact ⟨t, rfl⟩
      · rintro ⟨t, ht⟩
        rw [List.cons_append] at ht
        cases ht
        exact ⟨rfl, t, rfl⟩

theorem subB_iff (p : List Char) : ∀ l, subB p l = true ↔ ∃ a b, l = a ++ p ++ b := by
  intro l
  induction l with
  | nil =>
    simp only [subB, List.isEmpty_iff]
    constructor
    · rintro rfl; exact ⟨[], [], rfl⟩
    · rintro ⟨a, b, h⟩
      rcases List.append_eq_nil.mp h.symm with ⟨h1, h2⟩
      exact (List.append_eq_nil.mp h1).2
  | cons c cs ih =>
    simp only [subB, Bool.or_eq_true, prefB_iff, ih]
    constructor
    · rintro (⟨t, ht⟩ | ⟨a, b, hab⟩)
      · exact ⟨[], t, by simp [ht]⟩
      · exact ⟨c :: a, b, by simp [hab]⟩
    · rintro ⟨a, b, hab⟩
      cases a with
      | nil => exact Or.inl ⟨b, by simpa using hab⟩
      | cons a0 a' =>
        rw [List.cons_append, List.cons_append] at hab
        cases hab
        exact Or.inr ⟨a', b, rfl⟩

/-- C3: for a negative integer key `N`, `__getitem__` returns the run at
position `-N - 1` of the descending-by-start-time enumeration; `get(-1)`
corresponds to the first element of `keys()`; and it raises `IndexError`
exactly when `-N - 1` is at least the number of runs matching the query. -/
theorem c3_negative_get (runs : List RunStart) (N : Int) (hN : N < 0) :
    (∀ r, entriesGetItem runs (Sum.inl N) = .entry r ↔
        (sortDesc runs)[(-N - 1).toNat]? = some r) ∧
    (entriesGetItem runs (Sum.inl N) = .indexError ↔ runs.length ≤ (-N - 1).toNat) ∧
    (∀ r, entriesGetItem runs (Sum.inl (-1)) = .entry r →
        (entriesKeys runs).head? = some r.uid) := by
  refine ⟨?_, ?_, ?_⟩
  · intro r
    simp only [entriesGetItem, entriesGetInt, if_pos hN]
    rw [← List.head?_drop]
    cases h : (sortDesc runs).drop (-N - 1).toNat with
    | nil => simp
    | cons x xs => simp
  · simp only [entriesGetItem, entriesGetInt, if_pos hN]
    cases h : (sortDesc runs).drop (-N - 1).toNat with
    | nil =>
      have hle := List.drop_eq_nil_iff.mp h
      rw [length_sortDesc] at hle
      exact iff_of_true rfl hle
    | cons x xs =>
      have hlt : ¬ runs.length ≤ (-N - 1).toNat := by
        intro hle
        rw [← length_sortDesc runs] at hle
        rw [List.drop_eq_nil_iff.mpr hle] at h
        exact List.noConfusion h
      exact iff_of_false (by simp) hlt
  · intro r
    have h1 : (-(-1 : Int) - 1).toNat = 0 := by decide
    simp only [entriesGetItem, entriesGetInt, if_pos (by decide : (-1 : Int) < 0), h1,
      List.drop_zero, entriesKeys]
    cases h : sortDesc runs with
    | nil => intro hc; exact absurd hc (by simp)
    | cons x xs =>
      intro hc
      have hxr : x = r := by simpa using hc
      simp [hxr]

/-- C3 witness: on a concrete two-run catalog, `get(-3)` raises
`IndexError`, by the theorem applied at `N = -3`. -/
theorem c3_negative_get_witness :
    entriesGetItem [⟨"a", 1, 1⟩, ⟨"b", 0, 2⟩] (Sum.inl (-3)) = .indexError :=
  ((c3_negative_get [⟨"a", 1, 1⟩, ⟨"b", 0, 2⟩] (-3) (by decide)).2.1).mpr (by decide)

/-- C4 counterexample: the claim says a key that is a prefix of no uid never
matches a uid merely containing it; but with the single uid `"xabc"`, the
key `"abc"` (a prefix of no uid) is matched by the unanchored regex and the
lookup returns that run's entry instead of failing with NotFound. -/
theorem c4_counterexample :
    entriesGetItem [⟨"xabc", 0, 0⟩] (Sum.inr "abc") = .entry ⟨"xabc", 0, 0⟩ ∧
    ("abc".toList).isPrefixOf ("xabc".toList) = false := by
  exact ⟨by decide, by decide⟩

/-- C4 (amended): for a string key with no exact uid match, the lookup finds
the uids CONTAINING the key (Mongo's `$regex f'{name}.*'` is unanchored),
capped at 10 matches: zero matches raises NotFound (KeyError), exactly one
returns that run's entry, and more than one raises AmbiguousKey (ValueError)
listing the candidate uids. -/
theorem c4_amended (runs : List RunStart) (name : String)
    (hex : ∀ r ∈ runs, r.uid ≠ name) :
    (∀ r ∈ runs, regexMatch name r.uid = true ↔
        ∃ a b, r.uid.toList = a ++ name.toList ++ b) ∧
    ((runs.filter (fun r => regexMatch name r.uid)).take 10 = [] →
      entriesGetItem runs (Sum.inr name) = .keyError) ∧
    (∀ r, (runs.filter (fun r => regexMatch name r.uid)).take 10 = [r] →
      entriesGetItem runs (Sum.inr name) = .entry r) ∧
    (∀ r₁ r₂ ms, (runs.filter (fun r => regexMatch name r.uid)).take 10 = r₁ :: r₂ :: ms →
      entriesGetItem runs (Sum.inr name) =
        .ambiguous ((r₁ :: r₂ :: ms).map RunStart.uid)) := by
  have hfind : runs.find? (fun r => r.uid == name) = none := by
    rw [List.find?_eq_none]
    intro r hr
    simpa using hex r hr
  refine ⟨?_, ?_, ?_, ?_⟩
  · intro r _; exact subB_iff name.toList r.uid.toList
  · intro h
    simp only [entriesGetItem, entriesGetStr, hfind, h]
  · intro r h
    simp only [entriesGetItem, entriesGetStr, hfind, h]
  · intro r₁ r₂ ms h
    simp only [entriesGetItem, entriesGetStr, hfind, h]

/-- C4 witness: the spec's own scenario, uids `abc123`, `abc456`, `xyz789`;
`get("abc")` is ambiguous and lists both `abc123` and `abc456`. -/
theorem c4_amended_witness :
    entriesGetItem [⟨"abc123", 0, 0⟩, ⟨"abc456", 1, 1⟩, ⟨"xyz789", 2, 2⟩]
      (Sum.inr "abc") = .ambiguous ["abc123", "abc456"] :=
  (c4_amended [⟨"abc123", 0, 0⟩, ⟨"abc456", 1, 1⟩, ⟨"xyz789", 2, 2⟩] "abc"
    (by decide)).2.2.2 ⟨"abc123", 0, 0⟩ ⟨"abc456", 1, 1⟩ [] (by decide)

/-- C5 counterexample: `__contains__` does not return `false` whenever the
lookup raises: an ambiguous prefix makes it raise ValueError, and a
negative index past the end makes it raise IndexError, instead of
returning `false`. -/
theorem c5_counterexample :
    entriesContains [⟨"ab1", 0, 0⟩, ⟨"ab2", 1, 1⟩] (Sum.inr "ab") =
      .ambiguousErr ["ab1", "ab2"] ∧
    entriesContains [⟨"a", 5, 1⟩] (Sum.inl (-2)) = .indexErr := by
  exact ⟨by decide, by decide⟩

/-- C5 (amended): the membership test returns `true` exactly when the
lookup succeeds and `false` exactly when it raises KeyError (NotFound);
AmbiguousKey (ValueError) and IndexError-kind failures propagate out of
`__contains__` unchanged instead of being converted to `false`. -/
theorem c5_amended (runs : List RunStart) (key : Int ⊕ String) :
    (entriesContains runs key = .ret true ↔
      ∃ r, entriesGetItem runs key = .entry r) ∧
    (entriesContains runs key = .ret false ↔
      entriesGetItem runs key = .keyError) ∧
    (∀ uids, entriesContains runs key = .ambiguousErr uids ↔
      entriesGetItem runs key = .ambiguous uids) ∧
    (entriesContains runs key = .indexErr ↔
      entriesGetItem runs key = .indexError) := by
  cases h : entriesGetItem runs key <;>
    simp [entriesContains, h]

/-! ### Lemmas about the jsonl incremental loader -/

theorem lookup_alSet_self {α : Type} (f : String) (v : α) :
    ∀ mt : List (String × α), (alSet f v mt).lookup f = some v := by
  intro mt
  induction mt with
  | nil => simp [alSet, List.lookup]
  | cons p rest ih =>
    obtain ⟨k, w⟩ := p
    simp only [alSet]
    by_cases hk : k = f
    · subst hk; simp [List.lookup]
    · have hk' : (f == k) = false := beq_eq_false_iff_ne.mpr (fun h => hk h.symm)
      simp [List.lookup, hk, hk', ih]

theorem lookup_alSet_ne {α : Type} (f g : String) (v : α) (hg : g ≠ f) :
    ∀ mt : List (String × α), (alSet f v mt).lookup g = mt.lookup g := by
  intro mt
  induction mt with
  | nil =>
    have hg' : (g == f) = false := beq_eq_false_iff_ne.mpr hg
    simp [alSet, List.lookup, hg']
  | cons p rest ih =>
    obtain ⟨k, w⟩ := p
    simp only [alSet]
    by_cases hk : k = f
    · subst hk
      have hg' : (g == k) = false := beq_eq_false_iff_ne.mpr hg
      simp [List.lookup, hg']
    · by_cases hgk : g = k
      · subst hgk; simp [hk, List.lookup]
      · have hgk' : (g == k) = false := beq_eq_false_iff_ne.mpr hgk
        simp [hk, List.lookup, hgk', ih]

theorem loadFile_skip (f : String) (fd : FileData) (mt : List (String × Nat))
    (en : List (String × Registration)) (ls : Option Nat)
    (h : mt.lookup f = some fd.mtime) :
    loadFile f fd mt en ls = ⟨mt, en, ls, [.statOp f], none⟩ := by
  simp [loadFile, h]

theorem loadFile_mtimes (f : String) (fd : FileData) (mt : List (String × Nat))
    (en : List (String × Registration)) (ls : Option Nat)
    (h : ¬ mt.lookup f = some fd.mtime) :
    (loadFile f fd mt en ls).mtimes = alSet f fd.mtime mt := by
  simp only [loadFile, if_neg h]
  cases hl : fd.lines.head? with
  | none => rfl
  | some l =>
    cases l with
    | pair n d => cases hg : get_stop fd.lines <;> rfl
    | invalid =>
      cases h1 : fd.lines[1]? with
      | none => rfl
      | some x =>
        cases ls with
        | none => rfl
        | some sd => cases hg : get_stop fd.lines <;> rfl
    | nonPair => rfl

theorem loadFile_recorded (f : String) (fd : FileData) (mt : List (String × Nat))
    (en : List (String × Registration)) (ls : Option Nat) :
    ((loadFile f fd mt en ls).mtimes).lookup f = some fd.mtime := by
  by_cases h : mt.lookup f = some fd.mtime
  · rw [loadFile_skip f fd mt en ls h]; exact h
  · rw [loadFile_mtimes f fd mt en ls h]; exact lookup_alSet_self f fd.mtime mt

theorem loadFile_preserve (f g : String) (fd : FileData) (mt : List (String × Nat))
    (en : List (String × Registration)) (ls : Option Nat) (hg : g ≠ f) :
    ((loadFile f fd mt en ls).mtimes).lookup g = mt.lookup g ∧
    ((loadFile f fd mt en ls).entries).lookup g = en.lookup g := by
  by_cases h : mt.lookup f = some fd.mtime
  · rw [loadFile_skip f fd mt en ls h]; exact ⟨rfl, rfl⟩
  · constructor
    · rw [loadFile_mtimes f fd mt en ls h]; exact lookup_alSet_ne f g fd.mtime hg mt
    · simp only [loadFile, if_neg h]
      cases hl : fd.lines.head? with
      | none => rfl
      | some l =>
        cases l with
        | pair n d =>
          cases hg' : get_stop fd.lines with
          | ok sp => exact lookup_alSet_ne f g _ hg en
          | unboundLocal => rfl
          | uncaught => rfl
        | invalid =>
          cases h1 : fd.lines[1]? with
          | none => rfl
          | some x =>
            cases ls with
            | none => rfl
            | some sd =>
              cases hg' : get_stop fd.lines with
              | ok sp => exact lookup_alSet_ne f g _ hg en
              | unboundLocal => rfl
              | uncaught => rfl
        | nonPair => rfl

theorem runLoad_preserve (g : String) :
    ∀ (files : List (String × FileData)) (mt : List (String × Nat))
      (en : List (String × Registration)) (ls : Option Nat),
      (∀ p ∈ files, p.1 ≠ g) →
      (runLoad files mt en ls).1.lookup g = mt.lookup g ∧
      (runLoad files mt en ls).2.1.lookup g = en.lookup g := by
  intro files
  induction files with
  | nil => intro mt en ls _; exact ⟨rfl, rfl⟩
  | cons q rest ih =>
    intro mt en ls hne
    obtain ⟨f, fd⟩ := q
    have hgf : g ≠ f := Ne.symm (hne (f, fd) (List.mem_cons_self _ _))
    have hpres := loadFile_preserve f g fd mt en ls hgf
    cases hst : loadFile f fd mt en ls with
    | mk mt' en' ls' ops' cr =>
      have h1 : mt'.lookup g = mt.lookup g := by rw [hst] at hpres; exact hpres.1
      have h2 : en'.lookup g = en.lookup g := by rw [hst] at hpres; exact hpres.2
      cases cr with
      | some c =>
        simp only [runLoad, hst]
        exact ⟨h1, h2⟩
      | none =>
        simp only [runLoad, hst]
        have hrest := ih mt' en' ls' (fun q hq => hne q (List.mem_cons_of_mem _ hq))
        exact ⟨hrest.1.trans h1, hrest.2.trans h2⟩

theorem runLoad_recorded :
    ∀ (files : List (String × FileData)) (mt : List (String × Nat))
      (en : List (String × Registration)) (ls : Option Nat),
      (files.map Prod.fst).Nodup →
      (runLoad files mt en ls).2.2.2 = none →
      ∀ p ∈ files, (runLoad files mt en ls).1.lookup p.1 = some p.2.mtime := by
  intro files
  induction files with
  | nil => intro mt en ls _ _ p hp; exact absurd hp (List.not_mem_nil p)
  | cons q rest ih =>
    intro mt en ls hnd hcr p hp
    obtain ⟨f, fd⟩ := q
    have hrec := loadFile_recorded f fd mt en ls
    cases hst : loadFile f fd mt en ls with
    | mk mt' en' ls' ops' cr =>
      have hrec' : mt'.lookup f = some fd.mtime := by rw [hst] at hrec; exact hrec
      have hnd' : (f :: rest.map Prod.fst).Nodup := by simpa using hnd
      cases cr with
      | some c =>
        exfalso
        simp only [runLoad, hst] at hcr
        exact Option.noConfusion hcr
      | none =>
        simp only [runLoad, hst] at hcr ⊢
        rcases List.mem_cons.mp hp with rfl | hmem
        · have hne : ∀ q ∈ rest, q.1 ≠ f := by
            intro q hq h
            exact (List.nodup_cons.mp hnd').1 (h ▸ List.mem_map_of_mem Prod.fst hq)
          exact ((runLoad_preserve f rest mt' en' ls' hne).1).trans hrec'
        · exact ih mt' en' ls' (List.nodup_cons.mp hnd').2 hcr p hmem

theorem runLoad_allSkip :
    ∀ (files : List (String × FileData)) (mt : List (String × Nat))
      (en : List (String × Registration)) (ls : Option Nat),
      (∀ p ∈ files, mt.lookup p.1 = some p.2.mtime) →
      runLoad files mt en ls = (mt, en, files.map (fun p => .statOp p.1), none) := by
  intro files
  induction files with
  | nil => intro mt en ls _; rfl
  | cons q rest ih =>
    intro mt en ls hall
    obtain ⟨f, fd⟩ := q
    have hskip := loadFile_skip f fd mt en ls (hall (f, fd) (List.mem_cons_self _ _))
    simp only [runLoad, hskip]
    rw [ih mt en ls (fun p hp => hall p (List.mem_cons_of_mem _ hp))]
    simp

theorem runLoad_skipPre :
    ∀ (pre rest : List (String × FileData)) (mt : List (String × Nat))
      (en : List (String × Registration)) (ls : Option Nat),
      (∀ p ∈ pre, mt.lookup p.1 = some p.2.mtime) →
      runLoad (pre ++ rest) mt en ls =
        ((runLoad rest mt en ls).1, (runLoad rest mt en ls).2.1,
         pre.map (fun p => .statOp p.1) ++ (runLoad rest mt en ls).2.2.1,
         (runLoad rest mt en ls).2.2.2) := by
  intro pre
  induction pre with
  | nil => intro rest mt en ls _; simp
  | cons q pr ih =>
    intro rest mt en ls hall
    obtain ⟨f, fd⟩ := q
    have hskip := loadFile_skip f fd mt en ls (hall (f, fd) (List.mem_cons_self _ _))
    simp only [List.cons_append, runLoad, hskip, List.append_eq]
    rw [ih rest mt en ls (fun p hp => hall p (List.mem_cons_of_mem _ hp))]
    simp

/-- C8: `get_stop` reads only the file's last line (the modelled
`lastlines`); it returns the stop document when that line is a
`['stop', doc]` pair and `None` when the file is empty or the last line is
another document — but when the last line fails to decode as JSON it does
NOT return `None`: the local `name` is read unassigned and the call raises
`UnboundLocalError`, contradicting its own comment ("stop_doc will stay
None if it can't be decoded correctly"). -/
theorem c8_get_stop_unbound_local :
    get_stop [Line.pair "start" 0, Line.invalid] = .unboundLocal ∧
    specGetStop [Line.pair "start" 0, Line.invalid] = none ∧
    get_stop [Line.pair "start" 0, Line.pair "stop" 7] = .ok (some 7) ∧
    get_stop [Line.pair "start" 0, Line.pair "event" 3] = .ok none ∧
    get_stop [] = .ok none := by
  refine ⟨rfl, rfl, by decide, by decide, rfl⟩

/-- C7: the only silently-skipped parse failure is a first line that fails
to decode with nothing after it (first conjunct).  But a file whose first
line fails to decode while a second line exists is not surfaced as a
malformed-input error: the `except` block falls through without `continue`,
so `self.upsert(gen, start_doc, ...)` raises `UnboundLocalError` on the
first iteration (second conjunct), and on a later iteration it silently
registers the malformed file under the PREVIOUS file's start document
(third conjunct). -/
theorem c7_malformed_not_surfaced :
    loadFile "b" ⟨1, [Line.invalid]⟩ [] [] none =
      ⟨[("b", 1)], [], none,
        [.statOp "b", .readLineOp "b" 0, .readLineOp "b" 1], none⟩ ∧
    loadFile "b" ⟨1, [Line.invalid, Line.pair "event" 5]⟩ [] [] none =
      ⟨[("b", 1)], [], none,
        [.statOp "b", .readLineOp "b" 0, .readLineOp "b" 1],
        some .unboundLocal⟩ ∧
    loadFile "b" ⟨1, [Line.invalid, Line.pair "event" 5]⟩ []
        [("a", ⟨7, none, "a"⟩)] (some 7) =
      ⟨[("b", 1)], [("a", ⟨7, none, "a"⟩), ("b", ⟨7, none, "b"⟩)], some 7,
        [.statOp "b", .readLineOp "b" 0, .readLineOp "b" 1, .readLastOp "b"],
        none⟩ := by
  refine ⟨by decide, by decide, by decide⟩

/-- C10: in a `_load` iteration over a changed or newly seen file, the mtime
table is updated to the file's current mtime on every path — including the
momentarily-empty skip path and the crashing paths — and consequently a
later iteration over the same unchanged file skips it with only the stat. -/
theorem c10_mtime_recorded_first (f : String) (fd : FileData)
    (mt : List (String × Nat)) (en : List (String × Registration)) (ls : Option Nat)
    (h : ¬ mt.lookup f = some fd.mtime) :
    (loadFile f fd mt en ls).mtimes = alSet f fd.mtime mt ∧
    ∀ (en' : List (String × Registration)) (ls' : Option Nat),
      loadFile f fd (loadFile f fd mt en ls).mtimes en' ls' =
        ⟨(loadFile f fd mt en ls).mtimes, en', ls', [.statOp f], none⟩ := by
  refine ⟨loadFile_mtimes f fd mt en ls h, ?_⟩
  intro en' ls'
  have hrec := loadFile_recorded f fd mt en ls
  exact loadFile_skip f fd _ en' ls' hrec

/-- C10 witness: a newly seen, momentarily empty file still gets its mtime
recorded, and a later iteration over it skips with only the stat. -/
theorem c10_mtime_recorded_first_witness :
    loadFile "a" ⟨1, []⟩ [("a", 1)] [] none =
      ⟨[("a", 1)], [], none, [.statOp "a"], none⟩ := by
  have h := c10_mtime_recorded_first "a" ⟨1, []⟩ [] [] none (by decide)
  have h2 := h.2 [] none
  rw [h.1] at h2
  exact h2

/-- C6: over two successive `_load` scans: a file whose mtime is unchanged
is only statted again and every table is left unchanged (part one, where
nothing changed between the scans); and a file whose mtime advanced has its
registration fully replaced by one built from the new content alone, with
no merge of old and new (part two). -/
theorem c6_two_scans (before after : List (String × FileData)) (f : String)
    (fd fd' : FileData) (mt : List (String × Nat)) (en : List (String × Registration))
    (hnd : ((before ++ (f, fd) :: after).map Prod.fst).Nodup)
    (hcr : (load (before ++ (f, fd) :: after) mt en).2.2.2 = none) :
    (load (before ++ (f, fd) :: after) (load (before ++ (f, fd) :: after) mt en).1
        (load (before ++ (f, fd) :: after) mt en).2.1 =
      ((load (before ++ (f, fd) :: after) mt en).1,
       (load (before ++ (f, fd) :: after) mt en).2.1,
       (before ++ (f, fd) :: after).map (fun p => ReadOp.statOp p.1), none)) ∧
    (∀ (n : String) (sd : Nat) (sp : Option Nat), fd'.mtime ≠ fd.mtime →
      fd'.lines.head? = some (.pair n sd) → get_stop fd'.lines = .ok sp →
      load (before ++ (f, fd') :: after) (load (before ++ (f, fd) :: after) mt en).1
          (load (before ++ (f, fd) :: after) mt en).2.1 =
        (alSet f fd'.mtime (load (before ++ (f, fd) :: after) mt en).1,
         alSet f (Registration.mk sd sp f) (load (before ++ (f, fd) :: after) mt en).2.1,
         before.map (fun p => ReadOp.statOp p.1) ++
           (ReadOp.statOp f :: ReadOp.readLineOp f 0 :: ReadOp.readLastOp f ::
             after.map (fun p => ReadOp.statOp p.1)), none)) := by
  have hrec : ∀ p ∈ before ++ (f, fd) :: after,
      (load (before ++ (f, fd) :: after) mt en).1.lookup p.1 = some p.2.mtime :=
    runLoad_recorded (before ++ (f, fd) :: after) mt en none hnd hcr
  constructor
  · exact runLoad_allSkip (before ++ (f, fd) :: after)
      (load (before ++ (f, fd) :: after) mt en).1
      (load (before ++ (f, fd) :: after) mt en).2.1 none hrec
  · intro n sd sp hne hhead hstop
    have hb : ∀ p ∈ before,
        (load (before ++ (f, fd) :: after) mt en).1.lookup p.1 = some p.2.mtime :=
      fun p hp => hrec p (List.mem_append_left _ hp)
    have hcond : ¬ (load (before ++ (f, fd) :: after) mt en).1.lookup f = some fd'.mtime := by
      rw [hrec (f, fd) (List.mem_append_right _ (List.mem_cons_self _ _))]
      intro hx
      exact hne (Option.some.inj hx).symm
    have hstep : loadFile f fd' (load (before ++ (f, fd) :: after) mt en).1
        (load (before ++ (f, fd) :: after) mt en).2.1 none =
        ⟨alSet f fd'.mtime (load (before ++ (f, fd) :: after) mt en).1,
          alSet f (Registration.mk sd sp f) (load (before ++ (f, fd) :: after) mt en).2.1,
          some sd, [.statOp f, .readLineOp f 0, .readLastOp f], none⟩ := by
      simp only [loadFile, if_neg hcond, hhead, hstop, upsert]
    have hfa : f ∉ after.map Prod.fst := by
      have h2 : (((f, fd) :: after).map Prod.fst).Nodup := by
        have := List.Nodup.of_append_right (by simpa [List.map_append] using hnd :
          (before.map Prod.fst ++ ((f, fd) :: after).map Prod.fst).Nodup)
        exact this
      have h3 : (f :: after.map Prod.fst).Nodup := by simpa using h2
      exact (List.nodup_cons.mp h3).1
    have hafter : ∀ p ∈ after,
        (alSet f fd'.mtime (load (before ++ (f, fd) :: after) mt en).1).lookup p.1 =
          some p.2.mtime := by
      intro p hp
      have hpf : p.1 ≠ f := fun h => hfa (h ▸ List.mem_map_of_mem Prod.fst hp)
      rw [lookup_alSet_ne f p.1 fd'.mtime hpf]
      exact hrec p (List.mem_append_right _ (List.mem_cons_of_mem _ hp))
    show runLoad (before ++ (f, fd') :: after) _ _ none = _
    rw [runLoad_skipPre before ((f, fd') :: after) _ _ none hb]
    simp only [runLoad, hstep]
    rw [runLoad_allSkip after (alSet f fd'.mtime (load (before ++ (f, fd) :: after) mt en).1)
      (alSet f (Registration.mk sd sp f) (load (before ++ (f, fd) :: after) mt en).2.1)
      (some sd) hafter]
    simp

/-- C6 witness: one file whose start document changes from 3 to 5 and whose
stop document disappears between the scans: the second scan replaces the
registration wholesale with one built from the new content. -/
theorem c6_two_scans_witness :
    load [("a", FileData.mk 2 [Line.pair "start" 5])]
        (load [("a", FileData.mk 1 [Line.pair "start" 3, Line.pair "stop" 4])] [] []).1
        (load [("a", FileData.mk 1 [Line.pair "start" 3, Line.pair "stop" 4])] [] []).2.1 =
      (alSet "a" 2 (load [("a", FileData.mk 1 [Line.pair "start" 3, Line.pair "stop" 4])] [] []).1,
       alSet "a" (Registration.mk 5 none "a")
         (load [("a", FileData.mk 1 [Line.pair "start" 3, Line.pair "stop" 4])] [] []).2.1,
       [ReadOp.statOp "a", ReadOp.readLineOp "a" 0, ReadOp.readLastOp "a"], none) := by
  have h := (c6_two_scans [] [] "a" (FileData.mk 1 [Line.pair "start" 3, Line.pair "stop" 4])
    (FileData.mk 2 [Line.pair "start" 5]) [] [] (by decide) (by decide)).2
    "start" 5 none (by decide) (by decide) (by decide)
  simpa using h

/-! ### Lemmas about the k-way merge -/

theorem pairLe_refl (a : Nat × Nat) : pairLe a a := by
  simp [pairLe]

theorem pairLe_trans {a b c : Nat × Nat} (h1 : pairLe a b) (h2 : pairLe b c) : pairLe a c := by
  rcases h1 with h1 | ⟨h1, h1'⟩ <;> rcases h2 with h2 | ⟨h2, h2'⟩ <;>
    simp only [pairLe] <;> omega

theorem keyLt_false {a b : Nat × Nat} (h : keyLt a b = false) : pairLe b a := by
  simp only [keyLt, Bool.or_eq_false_iff, Bool.and_eq_false_iff, decide_eq_false_iff_not,
    beq_eq_false_iff_ne] at h
  simp only [pairLe]
  rcases h with ⟨h1, h2 | h2⟩ <;> omega

theorem keyLt_true {a b : Nat × Nat} (h : keyLt a b = true) : pairLe a b := by
  simp only [keyLt, Bool.or_eq_true, Bool.and_eq_true, decide_eq_true_eq, beq_iff_eq] at h
  simp only [pairLe]
  rcases h with h | ⟨h1, h2⟩ <;> omega

theorem popMin_fst_mem (e : HeapE) : ∀ l : List HeapE, (popMin e l).1 ∈ e :: l := by
  intro l
  induction l generalizing e with
  | nil => simp [popMin]
  | cons f fs ih =>
    simp only [popMin]
    split
    · rcases List.mem_cons.mp (ih f) with h | h
      · simp [h]
      · exact List.mem_cons_of_mem _ (List.mem_cons_of_mem _ h)
    · rcases List.mem_cons.mp (ih e) with h | h
      · simp [h]
      · exact List.mem_cons_of_mem _ (List.mem_cons_of_mem _ h)

theorem popMin_perm (e : HeapE) : ∀ l : List HeapE,
    (e :: l).Perm ((popMin e l).1 :: (popMin e l).2) := by
  intro l
  induction l generalizing e with
  | nil => simp [popMin]
  | cons f fs ih =>
    simp only [popMin]
    split
    · exact ((ih f).cons e).trans (List.Perm.swap _ _ _)
    · exact (List.Perm.swap f e fs).trans (((ih e).cons f).trans (List.Perm.swap _ _ _))

theorem popMin_len (e : HeapE) (l : List HeapE) : (popMin e l).2.length = l.length := by
  have h := (popMin_perm e l).length_eq
  simp only [List.length_cons] at h
  omega

theorem popMin_snd_sub (e : HeapE) (l : List HeapE) {x : HeapE}
    (hx : x ∈ (popMin e l).2) : x ∈ e :: l :=
  (popMin_perm e l).symm.subset (List.mem_cons_of_mem _ hx)

theorem popMin_min (e : HeapE) : ∀ l : List HeapE, ∀ x ∈ e :: l,
    pairLe (hkey (popMin e l).1) (hkey x) := by
  intro l
  induction l generalizing e with
  | nil =>
    intro x hx
    rcases List.mem_cons.mp hx with rfl | h
    · exact pairLe_refl _
    · exact absurd h (List.not_mem_nil x)
  | cons f fs ih =>
    intro x hx
    simp only [popMin]
    split
    case isTrue hlt =>
      rcases List.mem_cons.mp hx with hxe | hx'
      · rw [hxe]
        exact pairLe_trans (ih f f (List.mem_cons_self f fs)) (keyLt_true hlt)
      · exact ih f x hx'
    case isFalse hlt =>
      have hef : pairLe (hkey e) (hkey f) :=
        keyLt_false (show keyLt (hkey f) (hkey e) = false by simpa using hlt)
      rcases List.mem_cons.mp hx with hxe | hx'
      · rw [hxe]
        exact ih e e (List.mem_cons_self e fs)
      · rcases List.mem_cons.mp hx' with hxf | hx''
        · rw [hxf]
          exact pairLe_trans (ih e e (List.mem_cons_self e fs)) hef
        · exact ih e x (List.mem_cons_of_mem _ hx'')

theorem chain'_head_le (r : Rec) : ∀ rs : List Rec,
    List.Chain' (fun a b : Rec => a.time ≤ b.time) (r :: rs) →
    ∀ x ∈ rs, r.time ≤ x.time := by
  intro rs
  induction rs generalizing r with
  | nil => intro _ x hx; exact absurd hx (List.not_mem_nil x)
  | cons y ys ih =>
    intro hch x hx
    have h1 := (List.chain'_cons.mp hch).1
    have h2 := (List.chain'_cons.mp hch).2
    rcases List.mem_cons.mp hx with rfl | hx'
    · exact h1
    · exact le_trans h1 (ih y h2 x hx')

theorem flatten_set_perm {s : List (List Rec)} {i : Nat} {r : Rec} {rs : List Rec}
    (h : s[i]? = some (r :: rs)) :
    s.flatten.Perm (r :: (s.set i rs).flatten) := by
  induction s generalizing i with
  | nil => simp at h
  | cons a t ih =>
    cases i with
    | zero =>
      simp only [List.getElem?_cons_zero, Option.some.injEq] at h
      subst h
      simp only [List.set_cons_zero, List.flatten_cons, List.cons_append]
      exact List.Perm.refl _
    | succ j =>
      simp only [List.getElem?_cons_succ] at h
      rw [List.set_cons_succ, List.flatten_cons, List.flatten_cons]
      exact (List.Perm.append_left a (ih h)).trans List.perm_middle

theorem flatten_eq_nil_of_all_nil : ∀ s : List (List Rec),
    (∀ i, i < s.length → s[i]? = some []) → s.flatten = [] := by
  intro s
  induction s with
  | nil => intro _; rfl
  | cons a t ih =>
    intro h
    have h0 := h 0 (by simp)
    simp only [List.getElem?_cons_zero, Option.some.injEq] at h0
    subst h0
    simp only [List.flatten_cons, List.nil_append]
    exact ih (fun i hi => by
      have := h (i + 1) (by simpa using Nat.succ_lt_succ hi)
      simpa using this)

theorem sum_length_set {s : List (List Rec)} {r : Rec} {rs : List Rec} :
    ∀ {i : Nat}, s[i]? = some (r :: rs) →
      ((s.set i rs).map List.length).sum + 1 = (s.map List.length).sum := by
  induction s with
  | nil => intro i h; simp at h
  | cons a t ih =>
    intro i h
    cases i with
    | zero =>
      simp only [List.getElem?_cons_zero, Option.some.injEq] at h
      subst h
      simp only [List.set_cons_zero, List.map_cons, List.sum_cons, List.length_cons]
      omega
    | succ j =>
      simp only [List.getElem?_cons_succ] at h
      simp only [List.set_cons_succ, List.map_cons, List.sum_cons]
      have := ih h
      omega

theorem heapOk_mono {s : List (List Rec)} {h h' : List HeapE}
    (hsub : ∀ x ∈ h', x ∈ h) (hOk : HeapOk s h) : HeapOk s h' :=
  fun e he => hOk e (hsub e he)

/-- Invariant preservation across a refill step of the merge loop. -/
theorem step_pres {s : List (List Rec)} {e : HeapE} {hs : List HeapE}
    (hOk : HeapOk s (e :: hs)) (hS : StreamsOk s) (hT : TagsOk s)
    {r : Rec} {rs : List Rec}
    (hget : s[(popMin e hs).1.2.1]? = some (r :: rs)) :
    HeapOk (s.set (popMin e hs).1.2.1 rs)
      ((r.time, (popMin e hs).1.2.1, r) :: (popMin e hs).2) ∧
    StreamsOk (s.set (popMin e hs).1.2.1 rs) ∧
    TagsOk (s.set (popMin e hs).1.2.1 rs) := by
  have hmMem : (popMin e hs).1 ∈ e :: hs := popMin_fst_mem e hs
  have hmOk := hOk _ hmMem
  have hlen : (popMin e hs).1.2.1 < s.length := hmOk.1
  have hrsChain : List.Chain' (fun a b : Rec => a.time ≤ b.time) (r :: rs) :=
    hS _ (List.getElem?_mem hget)
  refine ⟨?_, ?_, ?_⟩
  · intro e' he'
    rcases List.mem_cons.mp he' with he' | hrest
    · subst he'
      refine ⟨by simpa [List.length_set] using hlen, rfl,
        hT _ _ hget r (List.mem_cons_self _ _), ?_⟩
      intro l hl r' hr'
      rw [List.getElem?_set_self hlen] at hl
      cases hl
      exact chain'_head_le r rs hrsChain r' hr'
    · have hOld := hOk e' (popMin_snd_sub e hs hrest)
      refine ⟨by simpa [List.length_set] using hOld.1, hOld.2.1, hOld.2.2.1, ?_⟩
      intro l hl r' hr'
      by_cases hji : e'.2.1 = (popMin e hs).1.2.1
      · rw [hji, List.getElem?_set_self hlen] at hl
        cases hl
        exact hOld.2.2.2 (r :: rs) (hji ▸ hget) r' (List.mem_cons_of_mem _ hr')
      · rw [List.getElem?_set_ne (fun hx => hji hx.symm)] at hl
        exact hOld.2.2.2 l hl r' hr'
  · intro l hl
    rcases List.mem_or_eq_of_mem_set hl with h | h
    · exact hS l h
    · subst h
      exact hrsChain.tail
  · intro j l hl r' hr'
    by_cases hji : j = (popMin e hs).1.2.1
    · subst hji
      rw [List.getElem?_set_self hlen] at hl
      cases hl
      exact hT _ (r :: rs) hget r' (List.mem_cons_of_mem _ hr')
    · rw [List.getElem?_set_ne (fun hx => hji hx.symm)] at hl
      exact hT j l hl r' hr'

/-- The merge loop's output is a permutation of the pending heap values
followed by everything left in the streams. -/
theorem mergeLoop_perm : ∀ (fuel : Nat) (s : List (List Rec)) (h : List HeapE),
    measureSH s h ≤ fuel → (∀ e ∈ h, e.2.1 < s.length) → EmptyOk s h →
    (mergeLoopF fuel s h).Perm ((h.map (fun e => e.2.2)) ++ s.flatten) := by
  intro fuel
  induction fuel with
  | zero =>
    intro s h hf _ _
    have hh : h = [] := List.eq_nil_of_length_eq_zero (by
      simp only [measureSH] at hf; omega)
    have hflat : s.flatten = [] := List.eq_nil_of_length_eq_zero (by
      rw [List.length_flatten]
      simp only [measureSH] at hf; omega)
    subst hh
    simp [mergeLoopF, hflat]
  | succ fuel ih =>
    intro s h hf hv hE
    cases h with
    | nil =>
      have hflat : s.flatten = [] := flatten_eq_nil_of_all_nil s (fun i hi =>
        hE i hi (fun e he => absurd he (List.not_mem_nil e)))
      simp [mergeLoopF, hflat]
    | cons e hs =>
      have hmMem := popMin_fst_mem e hs
      have hvm : (popMin e hs).1.2.1 < s.length := hv _ hmMem
      have hperm := popMin_perm e hs
      have hsubE : ∀ e' ∈ e :: hs, e' = (popMin e hs).1 ∨ e' ∈ (popMin e hs).2 := by
        intro e' he'
        have := hperm.subset he'
        exact List.mem_cons.mp this
      rcases hg : s[(popMin e hs).1.2.1]? with _ | l
      · exfalso
        rw [List.getElem?_eq_none_iff] at hg
        omega
      · rcases l with _ | ⟨r, rs⟩
        · -- the popped source is exhausted: drop its entry
          have hmeas : measureSH s (popMin e hs).2 ≤ fuel := by
            simp only [measureSH, popMin_len, List.length_cons] at hf ⊢
            omega
          have hv' : ∀ e' ∈ (popMin e hs).2, e'.2.1 < s.length :=
            fun e' he' => hv e' (popMin_snd_sub e hs he')
          have hE' : EmptyOk s (popMin e hs).2 := by
            intro j hj hnone
            by_cases hji : j = (popMin e hs).1.2.1
            · subst hji; exact hg
            · refine hE j hj (fun e' he' => ?_)
              rcases hsubE e' he' with he'' | he''
              · rw [he'']; exact fun hx => hji hx.symm
              · exact hnone e' he''
          have hIH := ih s (popMin e hs).2 hmeas hv' hE'
          simp only [mergeLoopF, hg]
          refine (hIH.cons _).trans ?_
          exact List.Perm.append_right s.flatten
            ((hperm.map (fun e => e.2.2)).symm)
        · -- refill from the popped source
          have hmeas : measureSH (s.set (popMin e hs).1.2.1 rs)
              ((r.time, (popMin e hs).1.2.1, r) :: (popMin e hs).2) ≤ fuel := by
            have hsum := sum_length_set hg
            simp only [measureSH, popMin_len, List.length_cons] at hf ⊢
            omega
          have hv' : ∀ e' ∈ (r.time, (popMin e hs).1.2.1, r) :: (popMin e hs).2,
              e'.2.1 < (s.set (popMin e hs).1.2.1 rs).length := by
            intro e' he'
            rcases List.mem_cons.mp he' with he'' | he''
            · subst he''; simpa [List.length_set] using hvm
            · simpa [List.length_set] using hv e' (popMin_snd_sub e hs he'')
          have hE' : EmptyOk (s.set (popMin e hs).1.2.1 rs)
              ((r.time, (popMin e hs).1.2.1, r) :: (popMin e hs).2) := by
            intro j hj hnone
            by_cases hji : j = (popMin e hs).1.2.1
            · exfalso
              exact hnone _ (List.mem_cons_self _ _) (by simpa using hji.symm)
            · rw [List.getElem?_set_ne (fun hx => hji hx.symm)]
              refine hE j (by simpa [List.length_set] using hj) (fun e' he' => ?_)
              rcases hsubE e' he' with he'' | he''
              · rw [he'']; exact fun hx => hji hx.symm
              · exact hnone e' (List.mem_cons_of_mem _ he'')
          have hIH := ih (s.set (popMin e hs).1.2.1 rs)
            ((r.time, (popMin e hs).1.2.1, r) :: (popMin e hs).2) hmeas hv' hE'
          simp only [mergeLoopF, hg]
          refine (hIH.cons _).trans ?_
          have h2 : (((popMin e hs).2.map (fun x => x.2.2)) ++ s.flatten).Perm
              (r :: (((popMin e hs).2.map (fun x => x.2.2)) ++
                (s.set (popMin e hs).1.2.1 rs).flatten)) :=
            (List.Perm.append_left _ (flatten_set_perm hg)).trans List.perm_middle
          refine (List.Perm.cons _ h2.symm).trans ?_
          exact List.Perm.append_right s.flatten ((hperm.map (fun x => x.2.2)).symm)

/-- Every record emitted by the merge loop is bounded below (in the
`(time, tag)` order) by some pending heap entry. -/
theorem mergeLoop_bound : ∀ (fuel : Nat) (s : List (List Rec)) (h : List HeapE),
    measureSH s h ≤ fuel → HeapOk s h → StreamsOk s → TagsOk s →
    ∀ x ∈ mergeLoopF fuel s h, ∃ e ∈ h, pairLe (hkey e) (x.time, x.tag) := by
  intro fuel
  induction fuel with
  | zero =>
    intro s h _ _ _ _ x hx
    exact absurd hx (by simp [mergeLoopF])
  | succ fuel ih =>
    intro s h hf hOk hS hT x hx
    cases h with
    | nil => exact absurd hx (by simp [mergeLoopF])
    | cons e hs =>
      have hmMem := popMin_fst_mem e hs
      have hmOk := hOk _ hmMem
      have hvm : (popMin e hs).1.2.1 < s.length := hmOk.1
      have hself : pairLe (hkey (popMin e hs).1)
          (((popMin e hs).1.2.2).time, ((popMin e hs).1.2.2).tag) := by
        simp only [hkey, pairLe]
        omega
      rcases hg : s[(popMin e hs).1.2.1]? with _ | l
      · exfalso
        rw [List.getElem?_eq_none_iff] at hg
        omega
      · rcases l with _ | ⟨r, rs⟩
        · simp only [mergeLoopF, hg, List.mem_cons] at hx
          rcases hx with hx | hx
          · subst hx
            exact ⟨_, hmMem, hself⟩
          · have hmeas : measureSH s (popMin e hs).2 ≤ fuel := by
              simp only [measureSH, popMin_len, List.length_cons] at hf ⊢
              omega
            have hOk' : HeapOk s (popMin e hs).2 :=
              heapOk_mono (fun y hy => popMin_snd_sub e hs hy) hOk
            obtain ⟨e', he', hle⟩ := ih s (popMin e hs).2 hmeas hOk' hS hT x hx
            exact ⟨e', popMin_snd_sub e hs he', hle⟩
        · simp only [mergeLoopF, hg, List.mem_cons] at hx
          rcases hx with hx | hx
          · subst hx
            exact ⟨_, hmMem, hself⟩
          · have hmeas : measureSH (s.set (popMin e hs).1.2.1 rs)
                ((r.time, (popMin e hs).1.2.1, r) :: (popMin e hs).2) ≤ fuel := by
              have hsum := sum_length_set hg
              simp only [measureSH, popMin_len, List.length_cons] at hf ⊢
              omega
            obtain ⟨hOk', hS', hT'⟩ := step_pres hOk hS hT hg
            obtain ⟨e', he', hle⟩ := ih _ _ hmeas hOk' hS' hT' x hx
            rcases List.mem_cons.mp he' with he'' | he''
            · subst he''
              refine ⟨_, hmMem, pairLe_trans ?_ hle⟩
              have hbd : (popMin e hs).1.1 ≤ r.time :=
                hmOk.2.2.2 (r :: rs) hg r (List.mem_cons_self _ _)
              simp only [hkey, pairLe]
              omega
            · exact ⟨e', popMin_snd_sub e hs he'', hle⟩

/-- The merge loop's output is sorted in the lexicographic
`(time, tag)` order. -/
theorem mergeLoop_sorted : ∀ (fuel : Nat) (s : List (List Rec)) (h : List HeapE),
    measureSH s h ≤ fuel → HeapOk s h → StreamsOk s → TagsOk s →
    List.Pairwise lexLe (mergeLoopF fuel s h) := by
  intro fuel
  induction fuel with
  | zero => intro s h _ _ _ _; simp [mergeLoopF]
  | succ fuel ih =>
    intro s h hf hOk hS hT
    cases h with
    | nil => simp [mergeLoopF]
    | cons e hs =>
      have hmMem := popMin_fst_mem e hs
      have hmOk := hOk _ hmMem
      have hvm : (popMin e hs).1.2.1 < s.length := hmOk.1
      have hmin := popMin_min e hs
      rcases hg : s[(popMin e hs).1.2.1]? with _ | l
      · exfalso
        rw [List.getElem?_eq_none_iff] at hg
        omega
      · rcases l with _ | ⟨r, rs⟩
        · have hmeas : measureSH s (popMin e hs).2 ≤ fuel := by
            simp only [measureSH, popMin_len, List.length_cons] at hf ⊢
            omega
          have hOk' : HeapOk s (popMin e hs).2 :=
            heapOk_mono (fun y hy => popMin_snd_sub e hs hy) hOk
          simp only [mergeLoopF, hg]
          refine List.Pairwise.cons ?_ (ih s (popMin e hs).2 hmeas hOk' hS hT)
          intro x hx
          obtain ⟨e', he', hle⟩ := mergeLoop_bound fuel s (popMin e hs).2
            hmeas hOk' hS hT x hx
          have h1 : pairLe (hkey (popMin e hs).1) (hkey e') :=
            hmin e' (popMin_snd_sub e hs he')
          have h2 := pairLe_trans h1 hle
          simp only [hkey, pairLe] at h2
          simp only [lexLe]
          omega
        · have hmeas : measureSH (s.set (popMin e hs).1.2.1 rs)
              ((r.time, (popMin e hs).1.2.1, r) :: (popMin e hs).2) ≤ fuel := by
            have hsum := sum_length_set hg
            simp only [measureSH, popMin_len, List.length_cons] at hf ⊢
            omega
          obtain ⟨hOk', hS', hT'⟩ := step_pres hOk hS hT hg
          simp only [mergeLoopF, hg]
          refine List.Pairwise.cons ?_ (ih _ _ hmeas hOk' hS' hT')
          intro x hx
          obtain ⟨e', he', hle⟩ := mergeLoop_bound fuel _ _ hmeas hOk' hS' hT' x hx
          have h1 : pairLe (hkey (popMin e hs).1) (hkey e') := by
            rcases List.mem_cons.mp he' with he'' | he''
            · subst he''
              have hbd : (popMin e hs).1.1 ≤ r.time :=
                hmOk.2.2.2 (r :: rs) hg r (List.mem_cons_self _ _)
              simp only [hkey, pairLe]
              omega
            · exact hmin e' (popMin_snd_sub e hs he'')
          have h2 := pairLe_trans h1 hle
          simp only [hkey, pairLe] at h2
          simp only [lexLe]
          omega

theorem initAux_fst : ∀ (gens : List (List Rec)) (i : Nat),
    (initAux i gens).1 = gens.map List.tail := by
  intro gens
  induction gens with
  | nil => intro i; rfl
  | cons g gs ih =>
    intro i
    cases g with
    | nil => simp [initAux, ih]
    | cons r rs => simp [initAux, ih]

theorem initAux_mem : ∀ (gens : List (List Rec)) (i : Nat) (e : HeapE),
    e ∈ (initAux i gens).2 ↔
      ∃ j r rs, gens[j]? = some (r :: rs) ∧ e = (r.time, i + j, r) := by
  intro gens
  induction gens with
  | nil => intro i e; simp [initAux]
  | cons g gs ih =>
    intro i e
    cases g with
    | nil =>
      simp only [initAux]
      rw [ih (i + 1) e]
      constructor
      · rintro ⟨j, r, rs, hj, he⟩
        refine ⟨j + 1, r, rs, by simpa using hj, ?_⟩
        rw [he]
        have hn : i + 1 + j = i + (j + 1) := by omega
        rw [hn]
      · rintro ⟨j, r, rs, hj, he⟩
        cases j with
        | zero => simp at hj
        | succ j' =>
          refine ⟨j', r, rs, by simpa using hj, ?_⟩
          rw [he]
          have hn : i + (j' + 1) = i + 1 + j' := by omega
          rw [hn]
    | cons r0 rs0 =>
      simp only [initAux, List.mem_cons]
      rw [ih (i + 1) e]
      constructor
      · rintro (he | ⟨j, r, rs, hj, he⟩)
        · exact ⟨0, r0, rs0, by simp, by simpa using he⟩
        · refine ⟨j + 1, r, rs, by simpa using hj, ?_⟩
          rw [he]
          have hn : i + 1 + j = i + (j + 1) := by omega
          rw [hn]
      · rintro ⟨j, r, rs, hj, he⟩
        cases j with
        | zero =>
          simp only [List.getElem?_cons_zero, Option.some.injEq] at hj
          cases hj
          left
          simpa using he
        | succ j' =>
          right
          refine ⟨j', r, rs, by simpa using hj, ?_⟩
          rw [he]
          have hn : i + (j' + 1) = i + 1 + j' := by omega
          rw [hn]

theorem initAux_vals_perm : ∀ (gens : List (List Rec)) (i : Nat),
    ((((initAux i gens).2).map (fun e => e.2.2)) ++ ((initAux i gens).1).flatten).Perm
      gens.flatten := by
  intro gens
  induction gens with
  | nil => intro i; simp [initAux]
  | cons g gs ih =>
    intro i
    cases g with
    | nil =>
      simp only [initAux, List.flatten_cons, List.nil_append]
      exact ih (i + 1)
    | cons r0 rs0 =>
      simp only [initAux, List.map_cons, List.flatten_cons, List.cons_append]
      refine List.Perm.cons r0 ?_
      have h1 : ((((initAux (i + 1) gs).2).map (fun e => e.2.2)) ++
          (rs0 ++ ((initAux (i + 1) gs).1).flatten)).Perm
          (rs0 ++ ((((initAux (i + 1) gs).2).map (fun e => e.2.2)) ++
            ((initAux (i + 1) gs).1).flatten)) := by
        rw [← List.append_assoc, ← List.append_assoc]
        exact List.Perm.append_right _ List.perm_append_comm
      exact h1.trans (List.Perm.append_left rs0 (ih (i + 1)))

/-- C2: on sorted inputs (each generator ascending by time), tagging each
record with its source index, `interlace_gens` emits a sequence whose length
is the sum of the input lengths, which is a permutation of the concatenation
of the inputs, which is globally ascending by time, and which on timestamp
ties emits the record from the lower source index first (the output is
pairwise ordered by the lexicographic `(time, source)` key). -/
theorem c2_interlace_gens (gens : List (List Rec))
    (hsorted : ∀ g ∈ gens, List.Chain' (fun a b : Rec => a.time ≤ b.time) g)
    (htags : ∀ (i : Nat) (hi : i < gens.length), ∀ r ∈ gens[i], r.tag = i) :
    (interlace_gens gens).length = (gens.map List.length).sum ∧
    (interlace_gens gens).Perm gens.flatten ∧
    List.Pairwise (fun a b : Rec => a.time ≤ b.time) (interlace_gens gens) ∧
    List.Pairwise lexLe (interlace_gens gens) := by
  have htags' : ∀ (j : Nat) (g : List Rec), gens[j]? = some g → ∀ r ∈ g, r.tag = j := by
    intro j g hj r hr
    obtain ⟨hlt, heq⟩ := List.getElem?_eq_some_iff.mp hj
    exact htags j hlt r (heq ▸ hr)
  have hfst : (initAux 0 gens).1 = gens.map List.tail := initAux_fst gens 0
  have hlen0 : (initAux 0 gens).1.length = gens.length := by
    rw [hfst, List.length_map]
  have hget0 : ∀ j : Nat, (initAux 0 gens).1[j]? = (gens[j]?).map List.tail := by
    intro j
    rw [hfst, List.getElem?_map]
  have hOk : HeapOk (initAux 0 gens).1 (initAux 0 gens).2 := by
    intro e he
    obtain ⟨j, r, rs, hj, he'⟩ := (initAux_mem gens 0 e).mp he
    rw [Nat.zero_add] at he'
    subst he'
    obtain ⟨hjlt, _⟩ := List.getElem?_eq_some_iff.mp hj
    refine ⟨by rw [hlen0]; exact hjlt, rfl,
      htags' j (r :: rs) hj r (List.mem_cons_self _ _), ?_⟩
    intro l hl r' hr'
    rw [hget0 j, hj] at hl
    simp only [Option.map_some', List.tail_cons, Option.some.injEq] at hl
    subst hl
    exact chain'_head_le r rs (hsorted (r :: rs) (List.getElem?_mem hj)) r' hr'
  have hE : EmptyOk (initAux 0 gens).1 (initAux 0 gens).2 := by
    intro j hj hnone
    have hjlt : j < gens.length := by omega
    rcases hg : gens[j]? with _ | g
    · rw [List.getElem?_eq_none_iff] at hg; omega
    · cases g with
      | nil =>
        rw [hget0 j, hg]
        rfl
      | cons r rs =>
        exfalso
        refine hnone (r.time, j, r) ?_ rfl
        rw [initAux_mem gens 0 (r.time, j, r)]
        exact ⟨j, r, rs, hg, by rw [Nat.zero_add]⟩
  have hS : StreamsOk (initAux 0 gens).1 := by
    intro l hl
    rw [hfst] at hl
    obtain ⟨g, hg, rfl⟩ := List.mem_map.mp hl
    exact (hsorted g hg).tail
  have hT : TagsOk (initAux 0 gens).1 := by
    intro j l hl r hr
    rw [hget0 j] at hl
    obtain ⟨g, hg, rfl⟩ := Option.map_eq_some'.mp hl
    exact htags' j g hg r (List.mem_of_mem_tail hr)
  have hv : ∀ e ∈ (initAux 0 gens).2, e.2.1 < (initAux 0 gens).1.length :=
    fun e he => (hOk e he).1
  have hperm : (interlace_gens gens).Perm gens.flatten := by
    have h1 := mergeLoop_perm (measureSH (initAux 0 gens).1 (initAux 0 gens).2)
      (initAux 0 gens).1 (initAux 0 gens).2 (le_refl _) hv hE
    exact h1.trans (initAux_vals_perm gens 0)
  have hsort : List.Pairwise lexLe (interlace_gens gens) :=
    mergeLoop_sorted (measureSH (initAux 0 gens).1 (initAux 0 gens).2)
      (initAux 0 gens).1 (initAux 0 gens).2 (le_refl _) hOk hS hT
  refine ⟨?_, hperm, ?_, hsort⟩
  · rw [hperm.length_eq, List.length_flatten]
  · refine hsort.imp ?_
    intro a b hab
    rcases hab with h | ⟨h, _⟩ <;> omega

/-- C2 witness: the spec's three-descriptor scenario with per-source times
`[1,4]`, `[2,5]`, `[3,6]`: the merge emits times `1,2,3,4,5,6`; the
ordering conclusions follow by the theorem applied there. -/
theorem c2_interlace_gens_witness :
    interlace_gens [[⟨1, 0⟩, ⟨4, 0⟩], [⟨2, 1⟩, ⟨5, 1⟩], [⟨3, 2⟩, ⟨6, 2⟩]] =
      [⟨1, 0⟩, ⟨2, 1⟩, ⟨3, 2⟩, ⟨4, 0⟩, ⟨5, 1⟩, ⟨6, 2⟩] ∧
    List.Pairwise lexLe
      (interlace_gens [[⟨1, 0⟩, ⟨4, 0⟩], [⟨2, 1⟩, ⟨5, 1⟩], [⟨3, 2⟩, ⟨6, 2⟩]]) :=
  ⟨by decide,
    (c2_interlace_gens [[⟨1, 0⟩, ⟨4, 0⟩], [⟨2, 1⟩, ⟨5, 1⟩], [⟨3, 2⟩, ⟨6, 2⟩]]
      (by intro g hg; fin_cases hg <;> simp [List.chain'_cons]) (by decide)).2.2.2⟩

/-! ### Lemmas about `query_embedder`: the string core -/

theorem prefix_length_le {p l : List Char} (h : p.isPrefixOf l = true) :
    p.length ≤ l.length := by
  obtain ⟨t, rfl⟩ := (prefB_iff p l).mp h
  simp

theorem splitF_irrel : ∀ (f₁ : Nat) (sep s : List Char) (f₂ : Nat),
    s.length ≤ f₁ → s.length ≤ f₂ → strSplitOnF f₁ sep s = strSplitOnF f₂ sep s := by
  intro f₁
  induction f₁ with
  | zero =>
    intro sep s f₂ h1 _
    have hs : s = [] := List.eq_nil_of_length_eq_zero (by omega)
    subst hs
    cases f₂ <;> rfl
  | succ f₁ ih =>
    intro sep s f₂ h1 h2
    cases s with
    | nil => cases f₂ <;> rfl
    | cons c cs =>
      cases f₂ with
      | zero => simp at h2
      | succ f₂ =>
        simp only [strSplitOnF]
        split
        · rw [ih sep (cs.drop (sep.length - 1)) f₂
            (by simp only [List.length_drop, List.length_cons] at *; omega)
            (by simp only [List.length_drop, List.length_cons] at *; omega)]
        · rw [ih sep cs f₂ (by simp at h1 ⊢; omega) (by simp at h2 ⊢; omega)]

theorem splitF_eq (fuel : Nat) (sep s : List Char) (h : s.length ≤ fuel) :
    strSplitOnF fuel sep s = strSplitOn sep s :=
  splitF_irrel fuel sep s s.length h (le_refl _)

theorem replaceF_irrel : ∀ (f₁ : Nat) (pat rep s : List Char) (f₂ : Nat),
    s.length ≤ f₁ → s.length ≤ f₂ → strReplaceF f₁ pat rep s = strReplaceF f₂ pat rep s := by
  intro f₁
  induction f₁ with
  | zero =>
    intro pat rep s f₂ h1 _
    have hs : s = [] := List.eq_nil_of_length_eq_zero (by omega)
    subst hs
    cases f₂ <;> rfl
  | succ f₁ ih =>
    intro pat rep s f₂ h1 h2
    cases s with
    | nil => cases f₂ <;> rfl
    | cons c cs =>
      cases f₂ with
      | zero => simp at h2
      | succ f₂ =>
        simp only [strReplaceF]
        split
        · rw [ih pat rep (cs.drop (pat.length - 1)) f₂
            (by simp only [List.length_drop, List.length_cons] at *; omega)
            (by simp only [List.length_drop, List.length_cons] at *; omega)]
        · rw [ih pat rep cs f₂ (by simp at h1 ⊢; omega) (by simp at h2 ⊢; omega)]

theorem replaceF_eq (fuel : Nat) (pat rep s : List Char) (h : s.length ≤ fuel) :
    strReplaceF fuel pat rep s = strReplace pat rep s :=
  replaceF_irrel fuel pat rep s s.length h (le_refl _)

theorem split_no_match : ∀ (sep s : List Char), subB sep s = false →
    strSplitOn sep s = [s] := by
  intro sep s
  induction s with
  | nil => intro _; rfl
  | cons c cs ih =>
    intro h
    simp only [subB, Bool.or_eq_false_iff] at h
    show strSplitOnF (c :: cs).length sep (c :: cs) = [c :: cs]
    simp only [List.length_cons, strSplitOnF, h.1, Bool.false_eq_true, and_false, if_false]
    rw [splitF_eq cs.length sep cs (le_refl _), ih h.2]

theorem split_head_match (c : Char) (sep' b : List Char) :
    strSplitOn (c :: sep') ((c :: sep') ++ b) = [] :: strSplitOn (c :: sep') b := by
  show strSplitOnF (c :: (sep' ++ b)).length (c :: sep') (c :: (sep' ++ b)) = _
  have hpre : (c :: sep').isPrefixOf (c :: (sep' ++ b)) = true :=
    (prefB_iff _ _).mpr ⟨b, by simp⟩
  simp only [List.length_cons, strSplitOnF, hpre, and_true, ne_eq,
    reduceCtorEq, not_false_iff, if_true]
  have hdrop : List.drop (sep'.length + 1 - 1) (sep' ++ b) = b := by
    rw [Nat.add_sub_cancel]
    exact List.drop_left sep' b
  rw [hdrop, splitF_eq _ _ b (by simp)]

theorem split_skip_seg : ∀ (a : List Char) (sep b : List Char), sep ≠ [] →
    (∀ j, j < a.length → sep.isPrefixOf ((a ++ sep ++ b).drop j) = false) →
    strSplitOn sep (a ++ sep ++ b) = a :: strSplitOn sep b := by
  intro a
  induction a with
  | nil =>
    intro sep b hsep _
    cases sep with
    | nil => exact absurd rfl hsep
    | cons c sep' =>
      rw [List.nil_append]
      exact split_head_match c sep' b
  | cons x a' ih =>
    intro sep b hsep hno
    have h0 : sep.isPrefixOf (x :: (a' ++ sep ++ b)) = false := by
      have := hno 0 (by simp)
      simpa using this
    show strSplitOnF (x :: (a' ++ sep ++ b)).length sep (x :: (a' ++ sep ++ b)) = _
    simp only [List.length_cons, strSplitOnF, h0, Bool.false_eq_true, and_false, if_false]
    rw [splitF_eq _ _ (a' ++ sep ++ b) (le_refl _)]
    rw [ih sep b hsep (fun j hj => by
      have := hno (j + 1) (by simp only [List.length_cons]; omega)
      simpa using this)]

theorem prefix_single_iff (c : Char) (l : List Char) :
    ([c].isPrefixOf l = true) ↔ l.head? = some c := by
  cases l with
  | nil => simp [List.isPrefixOf]
  | cons x xs =>
    simp only [List.isPrefixOf, Bool.and_eq_true, beq_iff_eq, List.head?_cons,
      Option.some.injEq]
    constructor
    · rintro ⟨rfl, _⟩; rfl
    · rintro rfl
      exact ⟨rfl, by simp [List.isPrefixOf]⟩

theorem subB_mem {pat s : List Char} (h : subB pat s = true) {c : Char} (hc : c ∈ pat) :
    c ∈ s := by
  obtain ⟨a, b, rfl⟩ := (subB_iff pat s).mp h
  exact List.mem_append_left _ (List.mem_append_right _ hc)

theorem splitChar_no {x : List Char} (c : Char) (hx : c ∉ x) :
    strSplitOn [c] x = [x] := by
  refine split_no_match [c] x ?_
  by_contra hb
  have : subB [c] x = true := by
    cases h : subB [c] x
    · exact absurd h hb
    · rfl
  exact hx (subB_mem this (List.mem_cons_self _ _))

theorem splitChar_append {x : List Char} (c : Char) (y : List Char) (hx : c ∉ x) :
    strSplitOn [c] (x ++ c :: y) = x :: strSplitOn [c] y := by
  have := split_skip_seg x [c] y (by simp) ?_
  · simpa using this
  · intro j hj
    cases hpre : [c].isPrefixOf ((x ++ [c] ++ y).drop j)
    · rfl
    · exfalso
      rw [prefix_single_iff, List.head?_drop, List.append_assoc,
        List.getElem?_append, if_pos hj] at hpre
      exact hx (List.getElem?_mem hpre)

theorem replace_no_occ : ∀ (pat rep s : List Char), subB pat s = false →
    strReplace pat rep s = s := by
  intro pat rep s
  induction s with
  | nil => intro _; rfl
  | cons c cs ih =>
    intro h
    simp only [subB, Bool.or_eq_false_iff] at h
    show strReplaceF (c :: cs).length pat rep (c :: cs) = _
    simp only [List.length_cons, strReplaceF, h.1, Bool.false_eq_true, and_false, if_false]
    rw [replaceF_eq cs.length pat rep cs (le_refl _), ih h.2]

theorem replace_self : ∀ (fuel : Nat) (pat s : List Char),
    strReplaceF fuel pat pat s = s := by
  intro fuel
  induction fuel with
  | zero => intro pat s; rfl
  | succ fuel ih =>
    intro pat s
    cases s with
    | nil => rfl
    | cons c cs =>
      simp only [strReplaceF]
      split
      case isTrue hp =>
        obtain ⟨t, ht⟩ := (prefB_iff pat (c :: cs)).mp hp.2
        have hdrop : cs.drop (pat.length - 1) = t := by
          rcases pat with _ | ⟨p0, pat'⟩
          · exact absurd rfl hp.1
          · rw [List.cons_append] at ht
            cases ht
            simp only [List.length_cons, Nat.add_sub_cancel]
            exact List.drop_left pat' t
        rw [hdrop, ih, ht]
      case isFalse => rw [ih]

theorem strReplace_self (pat s : List Char) : strReplace pat pat s = s :=
  replace_self s.length pat s

theorem replace_unique : ∀ (a : List Char) (pat b rep : List Char), pat ≠ [] →
    (∀ a' b', a ++ pat ++ b = a' ++ pat ++ b' → a' = a) →
    strReplace pat rep (a ++ pat ++ b) = a ++ rep ++ b := by
  intro a
  induction a with
  | nil =>
    intro pat b rep hpat huniq
    rcases pat with _ | ⟨p0, pat'⟩
    · exact absurd rfl hpat
    · have hnob : subB (p0 :: pat') b = false := by
        cases hsb : subB (p0 :: pat') b
        · rfl
        · exfalso
          obtain ⟨a2, b2, hb⟩ := (subB_iff _ _).mp hsb
          have : ((p0 :: pat') ++ a2) = [] := by
            refine huniq ((p0 :: pat') ++ a2) b2 ?_
            rw [hb]
            simp [List.append_assoc]
          simp at this
      show strReplaceF _ _ _ _ = _
      have hpre : (p0 :: pat').isPrefixOf ((p0 :: pat') ++ b) = true :=
        (prefB_iff _ _).mpr ⟨b, by simp⟩
      simp only [List.nil_append, List.cons_append, List.length_cons, strReplaceF]
      rw [if_pos ⟨by simp, by simp⟩]
      have hdrop : List.drop (pat'.length + 1 - 1) (pat' ++ b) = b := by
        rw [Nat.add_sub_cancel]
        exact List.drop_left pat' b
      simp only [List.append_eq]
      rw [hdrop, replaceF_eq _ _ _ b (by simp), replace_no_occ _ _ _ hnob]
  | cons x a' ih =>
    intro pat b rep hpat huniq
    have h0 : pat.isPrefixOf (x :: (a' ++ pat ++ b)) = false := by
      cases hpre : pat.isPrefixOf (x :: (a' ++ pat ++ b))
      · rfl
      · exfalso
        obtain ⟨t, ht⟩ := (prefB_iff _ _).mp hpre
        have : ([] : List Char) = x :: a' := huniq [] t (by simpa using ht)
        exact List.noConfusion this
    show strReplaceF (x :: (a' ++ pat ++ b)).length pat rep (x :: (a' ++ pat ++ b)) = _
    simp only [List.length_cons, strReplaceF, h0, and_false, if_false]
    rw [replaceF_eq _ _ _ (a' ++ pat ++ b) (le_refl _)]
    rw [ih pat b rep hpat (fun a2 b2 h2 => by
      have := huniq (x :: a2) b2 (by simp only [List.cons_append, h2])
      simpa using this)]
    simp

theorem two_le_countP {l : List Nat} {p : Nat → Bool} {a b : Nat}
    (ha : a ∈ l) (hb : b ∈ l) (hne : a ≠ b) (hpa : p a = true) (hpb : p b = true) :
    2 ≤ l.countP p := by
  rw [List.countP_eq_length_filter]
  have haf : a ∈ l.filter p := List.mem_filter.mpr ⟨ha, hpa⟩
  have hbf : b ∈ l.filter p := List.mem_filter.mpr ⟨hb, hpb⟩
  have hbe : b ∈ (l.filter p).erase a := (List.mem_erase_of_ne hne.symm).mpr hbf
  have h1 : 1 ≤ ((l.filter p).erase a).length := by
    cases herase : (l.filter p).erase a with
    | nil => rw [herase] at hbe; exact absurd hbe (List.not_mem_nil b)
    | cons _ _ => simp
  have h2 : ((l.filter p).erase a).length = (l.filter p).length - 1 :=
    List.length_erase_of_mem haf
  omega

theorem match_at_of_decomp {pat s a b : List Char} (h : s = a ++ pat ++ b) :
    pat.isPrefixOf (s.drop a.length) = true ∧ a.length < s.length + 1 := by
  subst h
  constructor
  · rw [List.append_assoc, List.drop_left]
    exact (prefB_iff _ _).mpr ⟨b, by simp⟩
  · simp only [List.length_append]
    omega

theorem uniq_of_countOcc_one {pat s : List Char} (h1 : countOcc pat s = 1)
    {a b : List Char} (hab : s = a ++ pat ++ b) :
    ∀ a' b', s = a' ++ pat ++ b' → a' = a := by
  intro a' b' hab'
  obtain ⟨hm, hlt⟩ := match_at_of_decomp hab
  obtain ⟨hm', hlt'⟩ := match_at_of_decomp hab'
  have hlen : a'.length = a.length := by
    by_contra hne
    have hmem1 : a.length ∈ List.range (s.length + 1) := List.mem_range.mpr hlt
    have hmem2 : a'.length ∈ List.range (s.length + 1) := List.mem_range.mpr hlt'
    have hne2 : a.length ≠ a'.length := fun h => hne h.symm
    have h2 := @two_le_countP (List.range (s.length + 1))
      (fun k => pat.isPrefixOf (s.drop k)) a.length a'.length hmem1 hmem2 hne2 hm hm'
    simp only [countOcc] at h1
    omega
  have ha : a = s.take a.length := by rw [hab, List.append_assoc, List.take_left]
  have ha' : a' = s.take a'.length := by rw [hab', List.append_assoc, List.take_left]
  rw [ha, ha', hlen]

/-! ### Counting occurrences across the quote-delimited segments -/

theorem countOcc_nil (pat : List Char) :
    countOcc pat [] = if pat.isEmpty then 1 else 0 := by
  cases pat <;> simp [countOcc, List.countP, List.countP.go, List.isPrefixOf]

theorem countOcc_cons (pat : List Char) (c : Char) (s : List Char) :
    countOcc pat (c :: s) =
      (if pat.isPrefixOf (c :: s) then 1 else 0) + countOcc pat s := by
  simp only [countOcc, List.length_cons]
  rw [List.range_succ_eq_map, List.countP_cons, List.countP_map]
  have h1 : ((fun k => pat.isPrefixOf ((c :: s).drop k)) ∘ Nat.succ) =
      (fun k => pat.isPrefixOf (s.drop k)) := by
    funext k
    simp [Function.comp, List.drop_succ_cons]
  rw [h1]
  simp only [List.drop_zero]
  omega

theorem countOcc_eq_zero (pat : List Char) : ∀ s,
    (countOcc pat s = 0 ↔ subB pat s = false) := by
  intro s
  induction s with
  | nil =>
    rw [countOcc_nil]
    simp only [subB]
    cases hp : pat.isEmpty <;> simp [hp]
  | cons c cs ih =>
    rw [countOcc_cons]
    simp only [subB, Bool.or_eq_false_iff]
    cases hp : pat.isPrefixOf (c :: cs) <;> simp [hp, ih]

theorem countOcc_pos_of_decomp {pat : List Char} {s a b : List Char}
    (h : s = a ++ pat ++ b) : countOcc pat s ≠ 0 := by
  intro hz
  rw [countOcc_eq_zero] at hz
  have hs : subB pat s = true := (subB_iff pat s).mpr ⟨a, b, h⟩
  rw [hs] at hz
  exact Bool.noConfusion hz

theorem prefix_append_quote {pat : List Char} (_hpat : pat ≠ []) (hq : qu ∉ pat)
    (x y : List Char) :
    pat.isPrefixOf (x ++ qu :: y) = pat.isPrefixOf x := by
  cases h1 : pat.isPrefixOf x
  · cases h2 : pat.isPrefixOf (x ++ qu :: y)
    · rfl
    · exfalso
      obtain ⟨t, ht⟩ := (prefB_iff _ _).mp h2
      rcases List.append_eq_append_iff.mp ht.symm with ⟨a', ha1, _⟩ | ⟨c', hc1, hc2⟩
      · have hx : pat.isPrefixOf x = true := (prefB_iff _ _).mpr ⟨a', ha1⟩
        rw [hx] at h1; exact Bool.noConfusion h1
      · cases c' with
        | nil =>
          rw [List.append_nil] at hc1
          have hx : pat.isPrefixOf x = true :=
            (prefB_iff _ _).mpr ⟨[], by rw [← hc1, List.append_nil]⟩
          rw [hx] at h1; exact Bool.noConfusion h1
        | cons c0 c'' =>
          rw [List.cons_append] at hc2
          injection hc2 with hqc _
          apply hq
          rw [hc1, ← hqc]
          exact List.mem_append_right x (List.mem_cons_self _ _)
  · obtain ⟨t, ht⟩ := (prefB_iff _ _).mp h1
    have : pat.isPrefixOf (x ++ qu :: y) = true :=
      (prefB_iff _ _).mpr ⟨t ++ qu :: y, by rw [ht]; simp [List.append_assoc]⟩
    rw [this]

theorem countOcc_append_quote {pat : List Char} (hpat : pat ≠ []) (hq : qu ∉ pat) :
    ∀ (x y : List Char), countOcc pat (x ++ qu :: y) = countOcc pat x + countOcc pat y := by
  intro x
  induction x with
  | nil =>
    intro y
    rw [List.nil_append, countOcc_cons]
    have h0 : pat.isPrefixOf (qu :: y) = false := by
      have := prefix_append_quote hpat hq [] y
      rw [List.nil_append] at this
      rw [this]
      cases pat with
      | nil => exact absurd rfl hpat
      | cons p ps => rfl
    rw [h0, countOcc_nil]
    cases pat with
    | nil => exact absurd rfl hpat
    | cons p ps => simp [List.isEmpty]
  | cons c x' ih =>
    intro y
    rw [List.cons_append, countOcc_cons, countOcc_cons]
    have hsp : pat.isPrefixOf (c :: (x' ++ qu :: y)) = pat.isPrefixOf (c :: x') := by
      have := prefix_append_quote hpat hq (c :: x') y
      rw [List.cons_append] at this
      exact this
    rw [hsp, ih y]
    omega

theorem countOcc_self {pat : List Char} (hpat : pat ≠ []) : countOcc pat pat = 1 := by
  simp only [countOcc]
  rw [List.range_succ_eq_map, List.countP_cons, List.countP_map]
  have h0 : pat.isPrefixOf (pat.drop 0) = true := by
    rw [List.drop_zero]
    exact (prefB_iff _ _).mpr ⟨[], by simp⟩
  have hrest : List.countP ((fun k => pat.isPrefixOf (pat.drop k)) ∘ Nat.succ)
      (List.range pat.length) = 0 := by
    rw [List.countP_eq_zero]
    intro k hk
    simp only [Function.comp]
    intro hpre
    have hle := prefix_length_le hpre
    rw [List.length_drop] at hle
    rw [List.mem_range] at hk
    have : pat.length ≠ 0 := fun h => hpat (List.eq_nil_of_length_eq_zero h)
    omega
  rw [hrest, h0]
  simp

theorem interQuote_cons {rest : List (List Char)} (s : List Char) (h : rest ≠ []) :
    interQuote (s :: rest) = s ++ qu :: interQuote rest := by
  cases rest with
  | nil => exact absurd rfl h
  | cons t ts => rfl

theorem countOcc_interQuote {pat : List Char} (hpat : pat ≠ []) (hq : qu ∉ pat) :
    ∀ segs : List (List Char),
      countOcc pat (interQuote segs) = (segs.map (countOcc pat)).sum := by
  intro segs
  induction segs with
  | nil =>
    simp only [interQuote, List.map_nil, List.sum_nil]
    rw [countOcc_nil]
    cases pat with
    | nil => exact absurd rfl hpat
    | cons p ps => simp [List.isEmpty]
  | cons s rest ih =>
    cases rest with
    | nil => simp [interQuote]
    | cons t ts =>
      rw [interQuote_cons s (by simp), countOcc_append_quote hpat hq, ih]
      simp

theorem interQuote_append : ∀ (A : List (List Char)), A ≠ [] →
    ∀ (x : List Char) (B : List (List Char)), B ≠ [] →
      interQuote (A ++ x :: B) = (interQuote A ++ [qu]) ++ x ++ (qu :: interQuote B) := by
  intro A
  induction A with
  | nil => intro h; exact absurd rfl h
  | cons a A' ih =>
    intro _ x B hB
    cases A' with
    | nil =>
      rw [List.cons_append, List.nil_append, interQuote_cons a (by simp),
        interQuote_cons x hB]
      simp [interQuote, List.append_assoc]
    | cons a2 A'' =>
      rw [List.cons_append, interQuote_cons a (by simp),
        interQuote_cons a (by simp), ih (by simp) x B hB]
      simp [List.append_assoc]

/-! ### The segment structure of the serialised query -/

theorem segsBody_ne_nil : ∀ q : Query, q ≠ [] → segsBody q ≠ [] := by
  intro q hq
  cases q with
  | nil => exact absurd rfl hq
  | cons p rest =>
    obtain ⟨k, v⟩ := p
    cases rest <;> simp [segsBody]

theorem segsBody_cons_of_ne (k v : List Char) {rest : Query} (h : rest ≠ []) :
    segsBody ((k, v) :: rest) = k :: midSeg v :: segsBody rest := by
  cases rest with
  | nil => exact absurd rfl h
  | cons p rest' => rfl

theorem segsBody_cons_decomp (v : List Char) (todo : Query) :
    ∃ R : List (List Char), R ≠ [] ∧
      ∀ k' : List Char, segsBody ((k', v) :: todo) = k' :: R := by
  cases todo with
  | nil => exact ⟨[lastSeg v], by simp, fun k' => rfl⟩
  | cons p rest => exact ⟨midSeg v :: segsBody (p :: rest), by simp, fun k' => rfl⟩

theorem dumpsTail_eq : ∀ (rest : Query), rest ≠ [] →
    dumpsTail rest = ',' :: ' ' :: qu :: interQuote (segsBody rest) := by
  intro rest
  induction rest with
  | nil => intro h; exact absurd rfl h
  | cons p rest' ih =>
    intro _
    obtain ⟨k, v⟩ := p
    cases rest' with
    | nil => simp [dumpsTail, segsBody, interQuote, lastSeg]
    | cons p2 rest'' =>
      rw [segsBody_cons_of_ne k v (by simp)]
      rw [interQuote_cons k (by simp),
        interQuote_cons (midSeg v) (segsBody_ne_nil _ (by simp))]
      show ',' :: ' ' :: qu :: (k ++ qu :: ':' :: ' ' :: (v ++ dumpsTail (p2 :: rest''))) = _
      rw [ih (by simp)]
      simp [midSeg, List.append_assoc]

theorem dumps_eq_segs : ∀ q : Query, q ≠ [] →
    dumps q = interQuote ([lbr] :: segsBody q) := by
  intro q hq
  cases q with
  | nil => exact absurd rfl hq
  | cons p rest =>
    obtain ⟨k, v⟩ := p
    cases rest with
    | nil =>
      simp [dumps, dumpsTail, segsBody, interQuote, lastSeg]
    | cons p2 rest' =>
      rw [segsBody_cons_of_ne k v (by simp)]
      rw [interQuote_cons [lbr] (by simp), interQuote_cons k (by simp),
        interQuote_cons (midSeg v) (segsBody_ne_nil _ (by simp))]
      simp only [dumps, dumpsTail_eq (p2 :: rest') (by simp), midSeg]
      simp [List.append_assoc]

theorem segsMid_cons (k v : List Char) (d : Query) :
    segsMid ((k, v) :: d) = k :: midSeg v :: segsMid d := by
  simp [segsMid]

theorem segsBody_eq_append : ∀ (d r : Query), r ≠ [] →
    segsBody (d ++ r) = segsMid d ++ segsBody r := by
  intro d
  induction d with
  | nil => intro r _; simp [segsMid]
  | cons p d' ih =>
    intro r hr
    obtain ⟨k, v⟩ := p
    have hne : d' ++ r ≠ [] := by
      intro h
      exact hr (List.append_eq_nil.mp h).2
    rw [List.cons_append, segsBody_cons_of_ne k v hne, ih r hr, segsMid_cons]
    rfl

theorem segsMid_mem {seg : List Char} {d : Query} :
    seg ∈ segsMid d ↔ ∃ p ∈ d, seg = p.1 ∨ seg = midSeg p.2 := by
  simp only [segsMid, List.mem_flatten, List.mem_map]
  constructor
  · rintro ⟨l, ⟨p, hp, rfl⟩, hseg⟩
    rcases List.mem_cons.mp hseg with h | h
    · exact ⟨p, hp, Or.inl h⟩
    · rcases List.mem_cons.mp h with h' | h'
      · exact ⟨p, hp, Or.inr h'⟩
      · exact absurd h' (List.not_mem_nil seg)
  · rintro ⟨p, hp, h | h⟩
    · exact ⟨[p.1, midSeg p.2], ⟨p, hp, rfl⟩, by rw [h]; exact List.mem_cons_self _ _⟩
    · exact ⟨[p.1, midSeg p.2], ⟨p, hp, rfl⟩,
        by rw [h]; exact List.mem_cons_of_mem _ (List.mem_cons_self _ _)⟩

theorem countSegsZero_pref {k : List Char} {d : Query}
    (hA0 : ∀ seg ∈ segsMid d, countOcc k seg = 0)
    (hβ : ∀ p ∈ d, ¬ '$' ∈ p.1 → subB k (startDot ++ p.1) = false) :
    ∀ seg ∈ segsMid (prefixedQuery d), countOcc k seg = 0 := by
  intro seg hseg
  obtain ⟨p', hp', hor⟩ := segsMid_mem.mp hseg
  obtain ⟨p, hp, rfl⟩ := List.mem_map.mp hp'
  rcases hor with h | h
  · simp only [newKey] at h
    by_cases hd : '$' ∈ p.1
    · rw [if_pos hd] at h
      exact hA0 seg (h ▸ segsMid_mem.mpr ⟨p, hp, Or.inl rfl⟩)
    · rw [if_neg hd] at h
      rw [h]
      exact (countOcc_eq_zero _ _).mpr (hβ p hp hd)
  · exact hA0 seg (h ▸ segsMid_mem.mpr ⟨p, hp, Or.inr rfl⟩)

/-- One replacement step: under the uniqueness and no-cascade conditions,
replacing the next key `k` in the partially-prefixed serialisation prefixes
exactly that key's slot. -/
theorem replace_step (done todo : Query) (k v : List Char)
    (hk : k ≠ [] ∧ qu ∉ k)
    (hU : countOcc k (dumps (done ++ (k, v) :: todo)) = 1)
    (hβ : ∀ p ∈ done, ¬ '$' ∈ p.1 → subB k (startDot ++ p.1) = false) :
    strReplace k (newKey k) (dumps (prefixedQuery done ++ (k, v) :: todo)) =
      dumps (prefixedQuery done ++ (newKey k, v) :: todo) := by
  by_cases hd : '$' ∈ k
  · rw [newKey, if_pos hd, strReplace_self]
  · rw [newKey, if_neg hd]
    obtain ⟨R, hRne, hR⟩ := segsBody_cons_decomp v todo
    -- the original serialisation splits as A0 ++ k :: R
    have horig : dumps (done ++ (k, v) :: todo) =
        interQuote (([lbr] :: segsMid done) ++ k :: R) := by
      rw [dumps_eq_segs _ (by simp), segsBody_eq_append _ _ (by simp), hR k]
      rfl
    -- the current serialisation splits as A ++ k :: R
    have hcur : dumps (prefixedQuery done ++ (k, v) :: todo) =
        interQuote (([lbr] :: segsMid (prefixedQuery done)) ++ k :: R) := by
      rw [dumps_eq_segs _ (by simp), segsBody_eq_append _ _ (by simp), hR k]
      rfl
    -- the target serialisation splits as A ++ (start.k) :: R
    have hnext : dumps (prefixedQuery done ++ (startDot ++ k, v) :: todo) =
        interQuote (([lbr] :: segsMid (prefixedQuery done)) ++ (startDot ++ k) :: R) := by
      rw [dumps_eq_segs _ (by simp), segsBody_eq_append _ _ (by simp), hR (startDot ++ k)]
      rfl
    -- counting: each original segment other than the slot has zero matches
    have hself := countOcc_self hk.1
    have hsplit : countOcc k [lbr] + ((segsMid done).map (countOcc k)).sum +
        (countOcc k k + (R.map (countOcc k)).sum) = 1 := by
      have h := hU
      rw [horig, countOcc_interQuote hk.1 hk.2] at h
      simp only [List.map_append, List.sum_append, List.map_cons, List.sum_cons] at h
      omega
    have hlbr0 : countOcc k [lbr] = 0 := by omega
    have hmid0 : ((segsMid done).map (countOcc k)).sum = 0 := by omega
    have hR0sum : (R.map (countOcc k)).sum = 0 := by omega
    have hR0 : ∀ seg ∈ R, countOcc k seg = 0 := fun seg hseg =>
      List.sum_eq_zero_iff.mp hR0sum _ (List.mem_map_of_mem _ hseg)
    have hmidzero : ∀ seg ∈ segsMid done, countOcc k seg = 0 := fun seg hseg =>
      List.sum_eq_zero_iff.mp hmid0 _ (List.mem_map_of_mem _ hseg)
    -- counts in the current serialisation: still exactly one
    have hmidpref0 : ((segsMid (prefixedQuery done)).map (countOcc k)).sum = 0 :=
      List.sum_eq_zero_iff.mpr (fun x hx => by
        obtain ⟨seg, hseg, rfl⟩ := List.mem_map.mp hx
        exact countSegsZero_pref hmidzero hβ seg hseg)
    have hcount : countOcc k (dumps (prefixedQuery done ++ (k, v) :: todo)) = 1 := by
      rw [hcur, countOcc_interQuote hk.1 hk.2]
      simp only [List.map_append, List.sum_append, List.map_cons, List.sum_cons]
      omega
    -- the unique slot is replaced
    have hs : dumps (prefixedQuery done ++ (k, v) :: todo) =
        (interQuote ([lbr] :: segsMid (prefixedQuery done)) ++ [qu]) ++ k ++
          (qu :: interQuote R) := by
      rw [hcur, interQuote_append _ (by simp) k R hRne]
    have hrepl : strReplace k (startDot ++ k)
        ((interQuote ([lbr] :: segsMid (prefixedQuery done)) ++ [qu]) ++ k ++
          (qu :: interQuote R)) =
        (interQuote ([lbr] :: segsMid (prefixedQuery done)) ++ [qu]) ++ (startDot ++ k) ++
          (qu :: interQuote R) :=
      replace_unique _ k _ (startDot ++ k) hk.1
        (fun a' b' h => uniq_of_countOcc_one hcount hs a' b' (hs.trans h))
    rw [hs, hrepl, hnext, interQuote_append _ (by simp) (startDot ++ k) R hRne]

/-- The whole replacement loop, by induction over the keys still to be
processed: the serialisation with the processed keys prefixed becomes the
serialisation with all keys prefixed. -/
theorem fold_replace : ∀ (todo done : Query),
    (∀ p ∈ done ++ todo, p.1 ≠ [] ∧ qu ∉ p.1) →
    (∀ p ∈ todo, countOcc p.1 (dumps (done ++ todo)) = 1) →
    List.Pairwise
      (fun a b : QStr × QStr => ¬ '$' ∈ a.1 → subB b.1 (startDot ++ a.1) = false)
      (done ++ todo) →
    List.foldl (fun acc k => strReplace k (newKey k) acc)
      (dumps (prefixedQuery done ++ todo)) (todo.map Prod.fst) =
      dumps (prefixedQuery (done ++ todo)) := by
  intro todo
  induction todo with
  | nil =>
    intro done _ _ _
    simp [prefixedQuery]
  | cons p todo' ih =>
    intro done hK hU hP
    obtain ⟨k, v⟩ := p
    have hkv : (k, v) ∈ done ++ (k, v) :: todo' :=
      List.mem_append_right _ (List.mem_cons_self _ _)
    have hβ : ∀ p' ∈ done, ¬ '$' ∈ p'.1 → subB k (startDot ++ p'.1) = false := by
      intro p' hp' hd
      exact (List.pairwise_append.mp hP).2.2 p' hp' (k, v) (List.mem_cons_self _ _) hd
    have hstep := replace_step done todo' k v (hK (k, v) hkv)
      (hU (k, v) (List.mem_cons_self _ _)) hβ
    simp only [List.map_cons, List.foldl_cons]
    rw [hstep]
    have hassoc : done ++ (k, v) :: todo' = (done ++ [(k, v)]) ++ todo' := by
      simp [List.append_assoc]
    have hpq : prefixedQuery done ++ (newKey k, v) :: todo' =
        prefixedQuery (done ++ [(k, v)]) ++ todo' := by
      simp [prefixedQuery, List.map_append]
    have hK' : ∀ p ∈ (done ++ [(k, v)]) ++ todo', p.1 ≠ [] ∧ qu ∉ p.1 := by
      rw [← hassoc]; exact hK
    have hU' : ∀ p ∈ todo', countOcc p.1 (dumps ((done ++ [(k, v)]) ++ todo')) = 1 := by
      rw [← hassoc]
      exact fun p hp => hU p (List.mem_cons_of_mem _ hp)
    have hP' : List.Pairwise
        (fun a b : QStr × QStr => ¬ '$' ∈ a.1 → subB b.1 (startDot ++ a.1) = false)
        ((done ++ [(k, v)]) ++ todo') := by
      rw [← hassoc]; exact hP
    rw [hpq, hassoc]
    exact ih (done ++ [(k, v)]) hK' hU' hP'

/-! ### Key extraction from the serialisation -/

theorem strSplitOnF_ne_nil : ∀ (fuel : Nat) (sep s : List Char),
    strSplitOnF fuel sep s ≠ [] := by
  intro fuel sep s
  cases fuel with
  | zero => simp [strSplitOnF]
  | succ f =>
    cases s with
    | nil => simp [strSplitOnF]
    | cons c cs =>
      simp only [strSplitOnF]
      split
      · simp
      · cases strSplitOnF f sep cs <;> simp

theorem strSplitOn_ne_nil (sep s : List Char) : strSplitOn sep s ≠ [] :=
  strSplitOnF_ne_nil s.length sep s

theorem match_pos_shift : ∀ (x : List Char), qu ∉ x → ∀ (r : List Char) (j : Nat),
    qcolon.isPrefixOf ((x ++ r).drop j) = true →
    ∃ j', j = x.length + j' ∧ qcolon.isPrefixOf (r.drop j') = true := by
  intro x
  induction x with
  | nil =>
    intro _ r j h
    exact ⟨j, by simp, by simpa using h⟩
  | cons c x' ih =>
    intro hq r j h
    cases j with
    | zero =>
      exfalso
      rw [List.drop_zero, List.cons_append] at h
      simp only [qcolon, List.isPrefixOf, Bool.and_eq_true, beq_iff_eq] at h
      exact hq (h.1 ▸ List.mem_cons_self c x')
    | succ j0 =>
      rw [List.cons_append, List.drop_succ_cons] at h
      obtain ⟨j', hj, hm⟩ := ih (fun hc => hq (List.mem_cons_of_mem _ hc)) r j0 h
      exact ⟨j', by simp only [List.length_cons]; omega, hm⟩

theorem head_append_of_ne_nil {k : List Char} (hk : k ≠ []) (r : List Char) :
    (k ++ r).head? = k.head? := by
  cases k with
  | nil => exact absurd rfl hk
  | cons c cs => rfl

theorem nomatch_seg {pre k : List Char} (hpre : qu ∉ pre) (hk : qu ∉ k) (hkne : k ≠ [])
    (hkh : k.head? ≠ some ':') (b : List Char) :
    ∀ j, j < (pre ++ qu :: k).length →
      qcolon.isPrefixOf (((pre ++ qu :: k) ++ qcolon ++ b).drop j) = false := by
  intro j hj
  cases hm : qcolon.isPrefixOf (((pre ++ qu :: k) ++ qcolon ++ b).drop j)
  · rfl
  · exfalso
    have hre : (pre ++ qu :: k) ++ qcolon ++ b = pre ++ (qu :: (k ++ qcolon ++ b)) := by
      simp [List.append_assoc]
    rw [hre] at hm
    obtain ⟨j1, hj1, hm1⟩ := match_pos_shift pre hpre _ j hm
    cases j1 with
    | zero =>
      rw [List.drop_zero] at hm1
      have h3 : [':'].isPrefixOf (k ++ [qu, ':'] ++ b) = true := by
        simpa [qcolon, List.isPrefixOf] using hm1
      rw [prefix_single_iff, List.append_assoc, head_append_of_ne_nil hkne] at h3
      exact hkh h3
    | succ j2 =>
      rw [List.drop_succ_cons] at hm1
      have hpre2 : qcolon.isPrefixOf ((k ++ (qcolon ++ b)).drop j2) = true := by
        rw [List.append_assoc] at hm1
        exact hm1
      obtain ⟨j3, hj3, _⟩ := match_pos_shift k hk _ j2 hpre2
      simp only [List.length_append, List.length_cons] at hj
      omega

theorem dropLast_cons_ne {α : Type} (a : α) {l : List α} (h : l ≠ []) :
    (a :: l).dropLast = a :: l.dropLast := by
  cases l with
  | nil => exact absurd rfl h
  | cons b bs => rfl

/-- `item.split(qu)[-1]` recovers `k` from a segment of shape `pre ++ qu :: k`
when `pre` and `k` are quote-free. -/
theorem extract_item_key {pre k : List Char} (hpre : qu ∉ pre) (hk : qu ∉ k) :
    ((strSplitOn [qu] (pre ++ qu :: k)).getLast?).getD [] = k := by
  rw [splitChar_append qu k hpre, splitChar_no qu hk]
  simp

/-- Key extraction from the tail of the serialisation: splitting
`w ++ dumpsTail rest` on the two-character separator and taking each item's
last quote-segment, dropping the final item, yields the keys of `rest`. -/
theorem extract_keys_tail : ∀ (rest : Query) (w : List Char), qu ∉ w →
    (∀ p ∈ rest, p.1 ≠ [] ∧ qu ∉ p.1 ∧ p.1.head? ≠ some ':') →
    (∀ p ∈ rest, qu ∉ p.2) →
    ((strSplitOn qcolon (w ++ dumpsTail rest)).map
        (fun item => ((strSplitOn [qu] item).getLast?).getD [])).dropLast
      = rest.map Prod.fst := by
  intro rest
  induction rest with
  | nil =>
    intro w hw _ _
    have hnq : subB qcolon (w ++ [rbr]) = false := by
      cases hs : subB qcolon (w ++ [rbr])
      · rfl
      · exfalso
        have hqmem : qu ∈ w ++ [rbr] := subB_mem hs (by simp [qcolon])
        rcases List.mem_append.mp hqmem with h | h
        · exact hw h
        · simp only [List.mem_singleton] at h
          exact absurd h (by decide)
    rw [show dumpsTail ([] : Query) = [rbr] from rfl, split_no_match _ _ hnq]
    simp
  | cons p rest' ih =>
    intro w hw hK hV
    obtain ⟨k, v⟩ := p
    have hKk := hK (k, v) (List.mem_cons_self _ _)
    have hVv := hV (k, v) (List.mem_cons_self _ _)
    have hpre : qu ∉ w ++ [',', ' '] := by
      intro hmem
      rcases List.mem_append.mp hmem with h | h
      · exact hw h
      · revert h; decide
    have hshape : w ++ dumpsTail ((k, v) :: rest') =
        ((w ++ [',', ' ']) ++ qu :: k) ++ qcolon ++ (' ' :: (v ++ dumpsTail rest')) := by
      simp [dumpsTail, qcolon, List.append_assoc]
    rw [hshape,
      split_skip_seg _ qcolon _ (by simp [qcolon])
        (nomatch_seg hpre hKk.2.1 hKk.1 hKk.2.2 _)]
    rw [List.map_cons]
    have htail_ne :
        (strSplitOn qcolon (' ' :: (v ++ dumpsTail rest'))).map
          (fun item => ((strSplitOn [qu] item).getLast?).getD []) ≠ [] := by
      intro hnil
      exact strSplitOn_ne_nil qcolon (' ' :: (v ++ dumpsTail rest'))
        (List.map_eq_nil_iff.mp hnil)
    rw [dropLast_cons_ne _ htail_ne]
    have hw2 : qu ∉ (' ' :: v) := by
      intro hmem
      rcases List.mem_cons.mp hmem with h | h
      · exact absurd h (by decide)
      · exact hVv h
    have hrec := ih (' ' :: v) hw2
      (fun p hp => hK p (List.mem_cons_of_mem _ hp))
      (fun p hp => hV p (List.mem_cons_of_mem _ hp))
    rw [List.cons_append] at hrec
    rw [hrec, extract_item_key hpre hKk.2.1]
    simp

/-- `extractKeys (dumps q) = q.map Prod.fst` when keys are nonempty,
quote-free and do not start with a colon, and values are quote-free. -/
theorem extractKeys_dumps (q : Query)
    (hK : ∀ p ∈ q, p.1 ≠ [] ∧ qu ∉ p.1 ∧ p.1.head? ≠ some ':')
    (hV : ∀ p ∈ q, qu ∉ p.2) :
    extractKeys (dumps q) = q.map Prod.fst := by
  cases q with
  | nil => decide
  | cons p rest =>
    obtain ⟨k, v⟩ := p
    have hKk := hK (k, v) (List.mem_cons_self _ _)
    have hVv := hV (k, v) (List.mem_cons_self _ _)
    have hshape : dumps ((k, v) :: rest) =
        (([lbr] ++ qu :: k) ++ qcolon ++ (' ' :: (v ++ dumpsTail rest))) := by
      simp [dumps, qcolon, List.append_assoc]
    have hpre : qu ∉ ([lbr] : List Char) := by decide
    unfold extractKeys
    rw [hshape,
      split_skip_seg _ qcolon _ (by simp [qcolon])
        (nomatch_seg hpre hKk.2.1 hKk.1 hKk.2.2 _)]
    rw [List.map_cons]
    have htail_ne :
        (strSplitOn qcolon (' ' :: (v ++ dumpsTail rest))).map
          (fun item => ((strSplitOn [qu] item).getLast?).getD []) ≠ [] := by
      intro hnil
      exact strSplitOn_ne_nil qcolon (' ' :: (v ++ dumpsTail rest))
        (List.map_eq_nil_iff.mp hnil)
    rw [dropLast_cons_ne _ htail_ne]
    have hw2 : qu ∉ (' ' :: v) := by
      intro hmem
      rcases List.mem_cons.mp hmem with h | h
      · exact absurd h (by decide)
      · exact hVv h
    have hrec := extract_keys_tail rest (' ' :: v) hw2
      (fun p hp => hK p (List.mem_cons_of_mem _ hp))
      (fun p hp => hV p (List.mem_cons_of_mem _ hp))
    rw [List.cons_append] at hrec
    rw [hrec, extract_item_key hpre hKk.2.1]
    simp

/-! ### The final parse -/

theorem segsBody_mem : ∀ (q : Query) (seg : List Char), seg ∈ segsBody q →
    ∃ p ∈ q, seg = p.1 ∨ seg = midSeg p.2 ∨ seg = lastSeg p.2 := by
  intro q
  induction q with
  | nil => intro seg h; simp [segsBody] at h
  | cons p rest ih =>
    obtain ⟨k, v⟩ := p
    intro seg h
    cases rest with
    | nil =>
      rcases List.mem_cons.mp h with heq | h2
      · exact ⟨(k, v), List.mem_cons_self _ _, Or.inl heq⟩
      · rcases List.mem_cons.mp h2 with heq | h3
        · exact ⟨(k, v), List.mem_cons_self _ _, Or.inr (Or.inr heq)⟩
        · simp at h3
    | cons p2 rest2 =>
      rw [show segsBody ((k, v) :: p2 :: rest2) =
          [k, midSeg v] ++ segsBody (p2 :: rest2) from rfl] at h
      rcases List.mem_append.mp h with h1 | h1
      · rcases List.mem_cons.mp h1 with heq | h2
        · exact ⟨(k, v), List.mem_cons_self _ _, Or.inl heq⟩
        · rcases List.mem_cons.mp h2 with heq | h3
          · exact ⟨(k, v), List.mem_cons_self _ _, Or.inr (Or.inl heq)⟩
          · simp at h3
      · obtain ⟨p, hp, hcase⟩ := ih seg h1
        exact ⟨p, List.mem_cons_of_mem _ hp, hcase⟩

/-- Splitting on the quote character inverts `interQuote` when every
segment is quote-free. -/
theorem split_quote_interQuote : ∀ (segs : List (List Char)), segs ≠ [] →
    (∀ seg ∈ segs, qu ∉ seg) → strSplitOn [qu] (interQuote segs) = segs := by
  intro segs
  induction segs with
  | nil => intro h _; exact absurd rfl h
  | cons s rest ih =>
    intro _ hqu
    cases rest with
    | nil =>
      rw [show interQuote [s] = s from rfl]
      exact splitChar_no qu (hqu s (List.mem_cons_self _ _))
    | cons t ts =>
      rw [interQuote_cons s (by simp),
        splitChar_append qu _ (hqu s (List.mem_cons_self _ _)),
        ih (by simp) (fun seg hseg => hqu seg (List.mem_cons_of_mem _ hseg))]

/-- The segment parser inverts `segsBody`. -/
theorem parseRest_segsBody : ∀ (q : Query), q ≠ [] →
    parseRest (segsBody q) = some q := by
  intro q
  induction q with
  | nil => intro h; exact absurd rfl h
  | cons p rest ih =>
    intro _
    obtain ⟨k, v⟩ := p
    cases rest with
    | nil =>
      show parseRest [k, lastSeg v] = some [(k, v)]
      have h1 : (lastSeg v).take 2 = [':', ' '] := rfl
      have h2 : (lastSeg v).getLast? = some rbr := by
        show ((':' :: ' ' :: v) ++ [rbr]).getLast? = some rbr
        exact List.getLast?_concat _
      have h3 : ((lastSeg v).drop 2).dropLast = v := by
        show (v ++ [rbr]).dropLast = v
        exact List.dropLast_concat
      rw [show parseRest [k, lastSeg v] =
          (if (lastSeg v).take 2 = [':', ' '] ∧ (lastSeg v).getLast? = some rbr then
            some [(k, (((lastSeg v).drop 2).dropLast))] else none) from rfl]
      rw [if_pos ⟨h1, h2⟩, h3]
    | cons p2 rest2 =>
      obtain ⟨s0, ss, hss⟩ :=
        List.exists_cons_of_ne_nil (segsBody_ne_nil (p2 :: rest2) (by simp))
      have hstep : segsBody ((k, v) :: p2 :: rest2) = k :: midSeg v :: s0 :: ss := by
        rw [show segsBody ((k, v) :: p2 :: rest2) =
            [k, midSeg v] ++ segsBody (p2 :: rest2) from rfl, hss]
        rfl
      rw [hstep]
      rw [show parseRest (k :: midSeg v :: s0 :: ss) =
          (match parseRest (s0 :: ss) with
           | none => none
           | some ps =>
             if (midSeg v).take 2 = [':', ' '] ∧
                 (((midSeg v).drop 2).reverse.take 2 = [' ', ',']) then
               some ((k, (((midSeg v).drop 2).dropLast.dropLast)) :: ps)
             else none) from rfl]
      rw [← hss, ih (by simp)]
      show (if (midSeg v).take 2 = [':', ' '] ∧
            (((midSeg v).drop 2).reverse.take 2 = [' ', ',']) then
          some ((k, (((midSeg v).drop 2).dropLast.dropLast)) :: (p2 :: rest2))
        else none) = some ((k, v) :: p2 :: rest2)
      have h1 : (midSeg v).take 2 = [':', ' '] := rfl
      have h2 : ((midSeg v).drop 2).reverse.take 2 = [' ', ','] := by
        show (v ++ [',', ' ']).reverse.take 2 = [' ', ',']
        rw [List.reverse_append]
        rfl
      have h3 : ((midSeg v).drop 2).dropLast.dropLast = v := by
        show ((v ++ [',', ' ']).dropLast).dropLast = v
        rw [show v ++ [',', ' '] = (v ++ [',']) ++ [' '] by simp,
          List.dropLast_concat, List.dropLast_concat]
      rw [if_pos ⟨h1, h2⟩, h3]

/-- The full parse inverts the serialisation when keys and values are
quote-free. -/
theorem parseQuery_dumps (q : Query)
    (hKq : ∀ p ∈ q, qu ∉ p.1) (hV : ∀ p ∈ q, qu ∉ p.2) :
    parseQuery (dumps q) = some q := by
  cases hq : q with
  | nil => decide
  | cons p rest =>
    rw [← hq]
    have hqne : q ≠ [] := by rw [hq]; simp
    have hsegqu : ∀ seg ∈ ([lbr] :: segsBody q), qu ∉ seg := by
      intro seg hseg
      rcases List.mem_cons.mp hseg with rfl | hseg2
      · decide
      · obtain ⟨p', hp', hcase⟩ := segsBody_mem q seg hseg2
        rcases hcase with rfl | rfl | rfl
        · exact hKq p' hp'
        · intro hmem
          rcases List.mem_cons.mp hmem with h | h
          · exact absurd h (by decide)
          · rcases List.mem_cons.mp h with h2 | h2
            · exact absurd h2 (by decide)
            · rcases List.mem_append.mp h2 with h3 | h3
              · exact hV p' hp' h3
              · revert h3; decide
        · intro hmem
          rcases List.mem_cons.mp hmem with h | h
          · exact absurd h (by decide)
          · rcases List.mem_cons.mp h with h2 | h2
            · exact absurd h2 (by decide)
            · rcases List.mem_append.mp h2 with h3 | h3
              · exact hV p' hp' h3
              · revert h3; decide
    rw [dumps_eq_segs q hqne]
    unfold parseQuery
    rw [split_quote_interQuote _ (by simp) hsegqu]
    obtain ⟨s0, ss, hss⟩ := List.exists_cons_of_ne_nil (segsBody_ne_nil q hqne)
    rw [hss]
    show (if ([lbr] : List Char) = [lbr] then parseRest (s0 :: ss) else none) = some q
    rw [if_pos rfl, ← hss, parseRest_segsBody q hqne]

/-- C9 counterexample: for the query `{"ab": 1, "t": 2}` every key is
`'$'`-free and occurs exactly once in the JSON serialisation (so the claim's
preconditions hold), yet `query_embedder` does not return the query with the
keys prefixed by `start.`: replacing `ab` by `start.ab` first introduces new
occurrences of `t`, which the later replacement of `t` then rewrites, and the
function returns the mangled dict
`{"sstart.tarstart.t.ab": 1, "start.t": 2}`. -/
theorem c9_counterexample :
    (∀ p ∈ ([(['a', 'b'], ['1']), (['t'], ['2'])] : Query), ¬ '$' ∈ p.1) ∧
    (∀ p ∈ ([(['a', 'b'], ['1']), (['t'], ['2'])] : Query),
      countOcc p.1 (dumps ([(['a', 'b'], ['1']), (['t'], ['2'])] : Query)) = 1) ∧
    query_embedder ([(['a', 'b'], ['1']), (['t'], ['2'])] : Query) =
      some [("sstart.tarstart.t.ab".toList, ['1']), ("start.t".toList, ['2'])] ∧
    query_embedder ([(['a', 'b'], ['1']), (['t'], ['2'])] : Query) ≠
      some (prefixedQuery ([(['a', 'b'], ['1']), (['t'], ['2'])] : Query)) := by
  decide

/-- C9 (amended): for every query whose keys are nonempty, quote-free, do
not start with `':'` and occur exactly once in the JSON serialisation, whose
values are quote-free, and where no later key is a substring of an earlier
key's replacement `start.k` (so no replacement can create an occurrence of a
key processed later), `query_embedder` returns the query with every
`'$'`-free key `k` replaced by `start.k` and all values unchanged; keys
containing `'$'` are left as-is. -/
theorem c9_amended (q : Query)
    (hK : ∀ p ∈ q, p.1 ≠ [] ∧ qu ∉ p.1 ∧ p.1.head? ≠ some ':')
    (hV : ∀ p ∈ q, qu ∉ p.2)
    (hU : ∀ p ∈ q, countOcc p.1 (dumps q) = 1)
    (hP : List.Pairwise
      (fun a b : QStr × QStr => ¬ '$' ∈ a.1 → subB b.1 (startDot ++ a.1) = false) q) :
    query_embedder q = some (prefixedQuery q) := by
  unfold query_embedder applyReplaces
  rw [extractKeys_dumps q hK hV]
  have hfold := fold_replace q []
    (fun p hp => ⟨(hK p hp).1, (hK p hp).2.1⟩) hU hP
  have hfold2 : List.foldl (fun acc k => strReplace k (newKey k) acc)
      (dumps q) (q.map Prod.fst) = dumps (prefixedQuery q) := hfold
  rw [hfold2]
  refine parseQuery_dumps (prefixedQuery q) ?_ ?_
  · intro p hp
    simp only [prefixedQuery] at hp
    obtain ⟨p', hp', rfl⟩ := List.mem_map.mp hp
    show qu ∉ newKey p'.1
    unfold newKey
    split
    · exact (hK p' hp').2.1
    · intro hmem
      rcases List.mem_append.mp hmem with h | h
      · revert h; decide
      · exact (hK p' hp').2.1 h
  · intro p hp
    simp only [prefixedQuery] at hp
    obtain ⟨p', hp', rfl⟩ := List.mem_map.mp hp
    exact hV p' hp'

theorem c9_amended_witness :
    query_embedder ([(['a', 'b'], ['1']), (['c', 'd'], ['2'])] : Query) =
      some (prefixedQuery ([(['a', 'b'], ['1']), (['c', 'd'], ['2'])] : Query)) :=
  c9_amended _ (by decide) (by decide) (by decide) (by decide)

end IntakeBluesky
